import Mathlib

/-!
Verification of the KPI calendar / scoring engine of the soldiers dashboard.

The Python sources (`app.py`, `update_service.py`) are shallowly embedded:

* A Python `date` is represented by its proleptic-Gregorian ordinal
  (`date.toordinal()` in Python: `0001-01-01` has ordinal `1`), an `Int`.
  Where the code reads calendar fields (`year`, `month`, `day`) a date is a
  `PyDate` triple and `pyOrd` recovers its ordinal.  Python's
  `date.weekday()` (Monday = 0 … Sunday = 6) becomes `pyWeekday` on
  ordinals: ordinal 1 is a Monday, so `weekday n = (n + 6) % 7`.  Python's
  `%` on a positive modulus agrees with `Int.emod`, which is what `%`
  denotes on `Int` here.
* Database rows become lists: `Soldier` for the `soldiers` table and
  `Post` for the `posts` table, with `posted_at` kept at date granularity
  (the code only ever uses the UTC date of the timestamp).
* Python `dict`s keyed by strings become insertion-ordered association
  structures (`dictInsert` keeps the position of an existing key and
  replaces its value, exactly like `d[k] = v`).
* `list.sort(key=lambda x: (-x["score"], -x["total_units"], x["handle"]))`
  is a stable sort by that key; it is modelled by `List.insertionSort`
  with the corresponding total preorder, which is also stable.
* Float division `daily_points / (days_in_range * 10)` is modelled by
  exact division in `ℚ`.
-/

namespace SoldiersKPI

/-! ## Calendar engine (from `app.py` and `update_service.py`) -/

/-- Gregorian leap-year test, as Python's `datetime` uses it. -/
def isLeap (y : Int) : Bool :=
  (y % 4 == 0 && y % 100 != 0) || y % 400 == 0

/-- Number of days of month `m` of year `y` (Python `calendar.monthrange`). -/
def daysInMonth (y m : Int) : Int :=
  if m = 2 then (if isLeap y then 29 else 28)
  else if m = 4 ∨ m = 6 ∨ m = 9 ∨ m = 11 then 30
  else 31

/-- Days of year `y` that precede the first day of month `m`. -/
def daysBeforeMonth (y m : Int) : Int :=
  (if m ≤ 1 then 0 else if m = 2 then 31 else if m = 3 then 59 else if m = 4 then 90
    else if m = 5 then 120 else if m = 6 then 151 else if m = 7 then 181 else if m = 8 then 212
    else if m = 9 then 243 else if m = 10 then 273 else if m = 11 then 304 else 334)
  + (if 3 ≤ m ∧ isLeap y then 1 else 0)

/-- Days before January 1 of year `y` (proleptic Gregorian, `y ≥ 1`). -/
def daysBeforeYear (y : Int) : Int :=
  365 * (y - 1) + (y - 1) / 4 - (y - 1) / 100 + (y - 1) / 400

/-- Python `date(y, m, d).toordinal()`. -/
def toOrdinal (y m d : Int) : Int :=
  daysBeforeYear y + daysBeforeMonth y m + d

/-- A Python `datetime.date` value, by calendar fields. -/
structure PyDate where
  year : Int
  month : Int
  day : Int
  deriving DecidableEq

/-- The ordinal of a `PyDate`. -/
def pyOrd (t : PyDate) : Int := toOrdinal t.year t.month t.day

/-- The triple denotes an actual Python `date` (Python enforces this in the
`date` constructor; `MINYEAR = 1`). -/
def ValidDate (t : PyDate) : Prop :=
  1 ≤ t.year ∧ 1 ≤ t.month ∧ t.month ≤ 12 ∧ 1 ≤ t.day ∧ t.day ≤ daysInMonth t.year t.month

instance (t : PyDate) : Decidable (ValidDate t) := by
  unfold ValidDate; infer_instance

/-- Python `date.weekday()` on an ordinal: Monday = 0 … Sunday = 6. -/
def pyWeekday (n : Int) : Int := (n + 6) % 7

/-- `start_of_week_window` (`update_service.py`):
`target_date - timedelta(days=(target_date.weekday() + 1) % 7)`,
the most recent Sunday on or before the date. -/
def start_of_week_window (d : Int) : Int := d - (pyWeekday d + 1) % 7

/-- `_kpi_month_window` (`app.py`): the Sunday on/before the 1st of the
month of `t` (the same `- (weekday + 1) % 7` formula as
`start_of_week_window`), and that Sunday plus 27 days. -/
def kpi_month_window (t : PyDate) : Int × Int :=
  (start_of_week_window (toOrdinal t.year t.month 1),
   start_of_week_window (toOrdinal t.year t.month 1) + 27)

/-- The `date(next_year, next_month, 1)` computed inside `current_kpi_window`. -/
def next_month_first (t : PyDate) : PyDate :=
  if t.month = 12 then ⟨t.year + 1, 1, 1⟩ else ⟨t.year, t.month + 1, 1⟩

/-- The `date(prev_year, prev_month, 1)` computed inside `current_kpi_window`. -/
def prev_month_first (t : PyDate) : PyDate :=
  if t.month = 1 then ⟨t.year - 1, 12, 1⟩ else ⟨t.year, t.month - 1, 1⟩

/-- `current_kpi_window` (`app.py`). -/
def current_kpi_window (t : PyDate) : Int × Int :=
  if (kpi_month_window t).2 < pyOrd t then kpi_month_window (next_month_first t)
  else if pyOrd t < (kpi_month_window t).1 then kpi_month_window (prev_month_first t)
  else kpi_month_window t

/-- `four_week_windows` (`update_service.py`): four 7-day windows starting
at the Sunday on/before the 1st of the month. -/
def four_week_windows (year month : Int) : List (Int × Int) :=
  let monthStart := toOrdinal year month 1
  let week1Start := start_of_week_window monthStart
  (List.range 4).map
    (fun i : ℕ => (week1Start + 7 * (i : Int), week1Start + 7 * (i : Int) + 6))

/-! ## Scoring function (`compute_qq_points`, `update_service.py`) -/

/-- `QQ_THRESHOLDS`: QQ points thresholds based on total units for a day. -/
def QQ_THRESHOLDS : List (Int × Int) :=
  [(0, 0), (2, 1), (5, 2), (8, 3), (11, 4), (15, 5), (20, 6), (25, 7), (30, 8), (35, 9)]

/-- The loop body of `compute_qq_points`: first row whose inclusive upper
bound admits `units`, else 10. -/
def qqLookup (units : Int) : List (Int × Int) → Int
  | [] => 10
  | (upper, points) :: rest => if units ≤ upper then points else qqLookup units rest

/-- `compute_qq_points` (`update_service.py`). -/
def compute_qq_points (units : Int) : Int :=
  qqLookup units QQ_THRESHOLDS

/-- Unfolding the threshold table into its first-match conditional form. -/
lemma compute_qq_points_eq (u : Int) :
    compute_qq_points u =
      if u ≤ 0 then 0 else if u ≤ 2 then 1 else if u ≤ 5 then 2 else if u ≤ 8 then 3
      else if u ≤ 11 then 4 else if u ≤ 15 then 5 else if u ≤ 20 then 6 else if u ≤ 25 then 7
      else if u ≤ 30 then 8 else if u ≤ 35 then 9 else 10 := by
  simp [compute_qq_points, QQ_THRESHOLDS, qqLookup]

/-! ## Claims C5, C10 -/

/-- Every value `qqLookup` can return on a table whose point column is at
least `p` (with `p ≤ 10` for the fall-through) is at least `p`. -/
lemma le_qqLookup (b p : Int) (l : List (Int × Int)) (hp10 : p ≤ 10)
    (hall : ∀ x ∈ l, p ≤ x.2) : p ≤ qqLookup b l := by
  induction l with
  | nil => simpa [qqLookup] using hp10
  | cons hd tl ih =>
    obtain ⟨u, q⟩ := hd
    simp only [qqLookup]
    split
    · exact hall (u, q) (by simp)
    · exact ih fun x hx => hall x (by simp [hx])

/-- Every value `qqLookup` can return on a table whose point column is at
most the fall-through value 10 is at most 10. -/
lemma qqLookup_le (b : Int) (l : List (Int × Int)) (h : ∀ x ∈ l, x.2 ≤ 10) :
    qqLookup b l ≤ 10 := by
  induction l with
  | nil => simp [qqLookup]
  | cons hd tl ih =>
    obtain ⟨u, q⟩ := hd
    simp only [qqLookup]
    split
    · exact h (u, q) (by simp)
    · exact ih fun x hx => h x (by simp [hx])

/-- First-match lookup in a table with ascending point column (all points
at most the fall-through value 10) is monotone in the looked-up value. -/
lemma qqLookup_mono (a b : Int) (hab : a ≤ b) (l : List (Int × Int))
    (hsort : List.Pairwise (fun x y : Int × Int => x.2 ≤ y.2) l)
    (h10 : ∀ x ∈ l, x.2 ≤ 10) : qqLookup a l ≤ qqLookup b l := by
  induction l with
  | nil => simp [qqLookup]
  | cons hd tl ih =>
    obtain ⟨u, q⟩ := hd
    simp only [qqLookup]
    by_cases ha : a ≤ u
    · rw [if_pos ha]
      by_cases hb : b ≤ u
      · rw [if_pos hb]
      · rw [if_neg hb]
        exact le_qqLookup b q tl (h10 (u, q) (by simp))
          (fun x hx => (List.pairwise_cons.mp hsort).1 x hx)
    · rw [if_neg ha, if_neg (by omega)]
      exact ih (List.pairwise_cons.mp hsort).2 (fun x hx => h10 x (by simp [hx]))

/-- C5: `compute_qq_points` is monotone non-decreasing on integers, is 0 at
`units = 0`, is 10 for every `units ≥ 36`, and agrees with the
inclusive-upper-bound first-match table
`≤0→0, ≤2→1, ≤5→2, ≤8→3, ≤11→4, ≤15→5, ≤20→6, ≤25→7, ≤30→8, ≤35→9, else 10`. -/
theorem C5_compute_qq_points_table :
    (∀ a b : Int, a ≤ b → compute_qq_points a ≤ compute_qq_points b) ∧
    compute_qq_points 0 = 0 ∧
    (∀ u : Int, 36 ≤ u → compute_qq_points u = 10) ∧
    (∀ u : Int, compute_qq_points u =
      if u ≤ 0 then 0 else if u ≤ 2 then 1 else if u ≤ 5 then 2 else if u ≤ 8 then 3
      else if u ≤ 11 then 4 else if u ≤ 15 then 5 else if u ≤ 20 then 6 else if u ≤ 25 then 7
      else if u ≤ 30 then 8 else if u ≤ 35 then 9 else 10) := by
  refine ⟨?_, by decide, ?_, compute_qq_points_eq⟩
  · intro a b hab
    exact qqLookup_mono a b hab QQ_THRESHOLDS (by decide) (by decide)
  · intro u hu
    rw [compute_qq_points_eq u]
    split_ifs <;> omega

/-- Witness for C5 at concrete inputs. -/
theorem C5_compute_qq_points_table_witness :
    compute_qq_points 3 ≤ compute_qq_points 7 ∧ compute_qq_points 37 = 10 :=
  ⟨C5_compute_qq_points_table.1 3 7 (by decide),
   C5_compute_qq_points_table.2.2.1 37 (by decide)⟩

/-- C10: `compute_qq_points` is total on all integers: every negative input
returns 0 (the first threshold row, upper bound 0, matches), and every
output lies in `[0, 10]`. -/
theorem C10_compute_qq_points_total :
    (∀ u : Int, u < 0 → compute_qq_points u = 0) ∧
    (∀ u : Int, 0 ≤ compute_qq_points u ∧ compute_qq_points u ≤ 10) := by
  constructor
  · intro u hu
    rw [compute_qq_points_eq u]
    split_ifs <;> omega
  · intro u
    exact ⟨le_qqLookup u 0 QQ_THRESHOLDS (by decide) (by decide),
      qqLookup_le u QQ_THRESHOLDS (by decide)⟩

/-- Witness for C10 at concrete inputs. -/
theorem C10_compute_qq_points_total_witness :
    compute_qq_points (-3) = 0 ∧
    (0 ≤ compute_qq_points 17 ∧ compute_qq_points 17 ≤ 10) :=
  ⟨C10_compute_qq_points_total.1 (-3) (by decide),
   C10_compute_qq_points_total.2 17⟩

/-! ## Claims C1, C4 -/

/-- The week-window start never lies after its argument. -/
lemma start_of_week_window_le (d : Int) : start_of_week_window d ≤ d := by
  unfold start_of_week_window pyWeekday
  omega

/-- The week-window start lies at most six days before its argument. -/
lemma lt_start_of_week_window (d : Int) : d - 7 < start_of_week_window d := by
  unfold start_of_week_window pyWeekday
  omega

/-- The week-window start is a Sunday: ordinal 1 (0001-01-01) is a Monday,
so Sundays are exactly the ordinals divisible by 7. -/
lemma start_of_week_window_mod (d : Int) : start_of_week_window d % 7 = 0 := by
  unfold start_of_week_window pyWeekday
  omega

/-- A date's ordinal, split at the first of its month. -/
lemma pyOrd_eq (t : PyDate) : pyOrd t = toOrdinal t.year t.month 1 + (t.day - 1) := by
  unfold pyOrd toOrdinal
  omega

/-- C1 (amended): for every date `t`, `current_kpi_window t` is an
inclusive 28-day window whose start is a Sunday; the retreat branch is dead
(`t` is never before the start of its own month's window), so the result is
the own-month window — which then contains `t` — unless `t` lies after that
window's end, in which case it is the next month's window, and that window
need not contain `t`.  Containment therefore holds exactly on the
`pyOrd t ≤ (kpi_month_window t).2` side. -/
theorem C1_current_kpi_window_amended (t : PyDate) (hv : ValidDate t) :
    (current_kpi_window t).2 = (current_kpi_window t).1 + 27 ∧
    (current_kpi_window t).1 % 7 = 0 ∧
    pyWeekday (current_kpi_window t).1 = 6 ∧
    (kpi_month_window t).1 ≤ pyOrd t ∧
    current_kpi_window t =
      (if (kpi_month_window t).2 < pyOrd t then kpi_month_window (next_month_first t)
       else kpi_month_window t) ∧
    (pyOrd t ≤ (kpi_month_window t).2 →
      (current_kpi_window t).1 ≤ pyOrd t ∧ pyOrd t ≤ (current_kpi_window t).2) := by
  obtain ⟨hy, hm1, hm2, hd1, hd2⟩ := hv
  have hMD : toOrdinal t.year t.month 1 ≤ pyOrd t := by
    rw [pyOrd_eq t]; omega
  have hS : (kpi_month_window t).1 ≤ pyOrd t :=
    le_trans (start_of_week_window_le _) hMD
  have hdead : ¬ pyOrd t < (kpi_month_window t).1 := not_lt.mpr hS
  have hcur : current_kpi_window t =
      (if (kpi_month_window t).2 < pyOrd t then kpi_month_window (next_month_first t)
       else kpi_month_window t) := by
    unfold current_kpi_window
    by_cases h1 : (kpi_month_window t).2 < pyOrd t
    · simp [h1]
    · simp [h1, hdead]
  have hshape : ∀ u : PyDate, (kpi_month_window u).2 = (kpi_month_window u).1 + 27 ∧
      (kpi_month_window u).1 % 7 = 0 := by
    intro u
    exact ⟨rfl, start_of_week_window_mod _⟩
  refine ⟨?_, ?_, ?_, hS, hcur, ?_⟩
  · rw [hcur]
    by_cases h1 : (kpi_month_window t).2 < pyOrd t
    · simp only [if_pos h1]; exact (hshape _).1
    · simp only [if_neg h1]; exact (hshape _).1
  · rw [hcur]
    by_cases h1 : (kpi_month_window t).2 < pyOrd t
    · simp only [if_pos h1]; exact (hshape _).2
    · simp only [if_neg h1]; exact (hshape _).2
  · rw [hcur]
    by_cases h1 : (kpi_month_window t).2 < pyOrd t
    · simp only [if_pos h1]
      have := (hshape (next_month_first t)).2
      unfold pyWeekday
      omega
    · simp only [if_neg h1]
      have := (hshape t).2
      unfold pyWeekday
      omega
  · intro hle
    rw [hcur, if_neg (not_lt.mpr hle)]
    exact ⟨hS, hle⟩

/-- Witness for C1 (amended) at 2026-03-15, a date inside its own month's
KPI window. -/
theorem C1_current_kpi_window_amended_witness :
    (current_kpi_window ⟨2026, 3, 15⟩).2 = (current_kpi_window ⟨2026, 3, 15⟩).1 + 27 ∧
    (current_kpi_window ⟨2026, 3, 15⟩).1 ≤ pyOrd ⟨2026, 3, 15⟩ ∧
    pyOrd ⟨2026, 3, 15⟩ ≤ (current_kpi_window ⟨2026, 3, 15⟩).2 := by
  have h := C1_current_kpi_window_amended ⟨2026, 3, 15⟩ (by decide)
  exact ⟨h.1, h.2.2.2.2.2 (by decide)⟩

/-- C1 fails as stated: 2026-01-25 lies after the end of January 2026's KPI
window (2025-12-28 … 2026-01-24), so `current_kpi_window` advances to
February's window (2026-02-01 … 2026-02-28), which does not contain it. -/
theorem C1_counterexample :
    ¬((current_kpi_window ⟨2026, 1, 25⟩).1 ≤ pyOrd ⟨2026, 1, 25⟩ ∧
      pyOrd ⟨2026, 1, 25⟩ ≤ (current_kpi_window ⟨2026, 1, 25⟩).2) := by
  decide

/-- C4: `four_week_windows y m` is exactly four contiguous 7-day windows,
the first starting at the start of `kpi_month_window (y, m, 1)` (a Sunday)
and the last ending at its end, and a day lies in one of the four windows
iff it lies in the 28-day month window. -/
theorem C4_four_week_windows (y m : Int) :
    four_week_windows y m =
      [((kpi_month_window ⟨y, m, 1⟩).1, (kpi_month_window ⟨y, m, 1⟩).1 + 6),
       ((kpi_month_window ⟨y, m, 1⟩).1 + 7, (kpi_month_window ⟨y, m, 1⟩).1 + 13),
       ((kpi_month_window ⟨y, m, 1⟩).1 + 14, (kpi_month_window ⟨y, m, 1⟩).1 + 20),
       ((kpi_month_window ⟨y, m, 1⟩).1 + 21, (kpi_month_window ⟨y, m, 1⟩).1 + 27)] ∧
    (kpi_month_window ⟨y, m, 1⟩).2 = (kpi_month_window ⟨y, m, 1⟩).1 + 27 ∧
    (kpi_month_window ⟨y, m, 1⟩).1 % 7 = 0 ∧
    (∀ d : Int, (∃ w ∈ four_week_windows y m, w.1 ≤ d ∧ d ≤ w.2) ↔
      ((kpi_month_window ⟨y, m, 1⟩).1 ≤ d ∧ d ≤ (kpi_month_window ⟨y, m, 1⟩).2)) := by
  have h4 : List.range 4 = [0, 1, 2, 3] := rfl
  have hk1 : (kpi_month_window ⟨y, m, 1⟩).1 = start_of_week_window (toOrdinal y m 1) := rfl
  have hk2 : (kpi_month_window ⟨y, m, 1⟩).2 = start_of_week_window (toOrdinal y m 1) + 27 := rfl
  have hw : four_week_windows y m =
      [(start_of_week_window (toOrdinal y m 1), start_of_week_window (toOrdinal y m 1) + 6),
       (start_of_week_window (toOrdinal y m 1) + 7, start_of_week_window (toOrdinal y m 1) + 13),
       (start_of_week_window (toOrdinal y m 1) + 14, start_of_week_window (toOrdinal y m 1) + 20),
       (start_of_week_window (toOrdinal y m 1) + 21,
         start_of_week_window (toOrdinal y m 1) + 27)] := by
    unfold four_week_windows
    rw [h4]
    simp only [List.map_cons, List.map_nil, List.cons.injEq, Prod.mk.injEq, and_true]
    omega
  refine ⟨?_, hk2.trans (by rw [hk1]), ?_, ?_⟩
  · rw [hw, hk1]
  · rw [hk1]
    exact start_of_week_window_mod _
  · intro d
    rw [hw, hk1, hk2]
    constructor
    · rintro ⟨w, hwmem, hle1, hle2⟩
      simp only [List.mem_cons, List.not_mem_nil, or_false] at hwmem
      rcases hwmem with rfl | rfl | rfl | rfl <;> constructor <;> omega
    · rintro ⟨h1, h2⟩
      by_cases c1 : d ≤ start_of_week_window (toOrdinal y m 1) + 6
      · exact ⟨(start_of_week_window (toOrdinal y m 1),
          start_of_week_window (toOrdinal y m 1) + 6), by simp, h1, c1⟩
      by_cases c2 : d ≤ start_of_week_window (toOrdinal y m 1) + 13
      · exact ⟨(start_of_week_window (toOrdinal y m 1) + 7,
          start_of_week_window (toOrdinal y m 1) + 13), by simp, by omega, c2⟩
      by_cases c3 : d ≤ start_of_week_window (toOrdinal y m 1) + 20
      · exact ⟨(start_of_week_window (toOrdinal y m 1) + 14,
          start_of_week_window (toOrdinal y m 1) + 20), by simp, by omega, c3⟩
      · exact ⟨(start_of_week_window (toOrdinal y m 1) + 21,
          start_of_week_window (toOrdinal y m 1) + 27), by simp, by omega, h2⟩

/-- Witness for C4 at (2026, 1) and day 739615 (= 2025-12-30). -/
theorem C4_four_week_windows_witness :
    (∃ w ∈ four_week_windows 2026 1, w.1 ≤ 739615 ∧ 739615 ≤ w.2) ↔
      ((kpi_month_window ⟨2026, 1, 1⟩).1 ≤ 739615 ∧
        739615 ≤ (kpi_month_window ⟨2026, 1, 1⟩).2) :=
  (C4_four_week_windows 2026 1).2.2.2 739615

/-! ## Data model of the store (`soldiers` and `posts` tables) -/

/-- A row of the `soldiers` table: `id, handle` (`profile_url` plays no
role in scoring). -/
structure Soldier where
  id : String
  handle : String
  deriving DecidableEq

/-- A row of the `posts` table as scoring sees it; `posted_at` is the
ordinal of the UTC date of the timestamp (the code only ever uses the
date part). -/
structure Post where
  soldier_id : String
  category : String
  units : Int
  posted_at : Int
  deriving DecidableEq

/-- Python `str.lower()` (the handles involved are ASCII). -/
def pyLower (s : String) : String := ⟨s.data.map Char.toLower⟩

/-- `d[k] = v` on an insertion-ordered string-keyed dict as an association
list: replaces the value in place when the key exists, else appends. -/
def dictInsert {α : Type} : List (String × α) → String → α → List (String × α)
  | [], k, v => [(k, v)]
  | (k1, v1) :: rest, k, v =>
    if k1 = k then (k, v) :: rest else (k1, v1) :: dictInsert rest k v

/-- `d.get(k, dflt)`. -/
def dictGetD {α : Type} (m : List (String × α)) (k : String) (dflt : α) : α :=
  match m.find? (fun q => q.1 == k) with
  | some q => q.2
  | none => dflt

/-- `refresh_soldiers` (`update_service.py`): the soldier cache, a dict
keyed by handle, skipping rows whose handle lowercases to `"pgm"`. -/
def refresh_soldiers (soldiers : List Soldier) : List (String × Soldier) :=
  soldiers.foldl
    (fun m row => if pyLower row.handle = "pgm" then m else dictInsert m row.handle row) []

/-- `get_soldiers`: the values of the soldier cache. -/
def get_soldiers (soldiers : List Soldier) : List Soldier :=
  (refresh_soldiers soldiers).map Prod.snd

/-- The `id_to_handle` dict built at the top of `_aggregate_range`. -/
def id_to_handle (soldiers : List Soldier) : List (String × String) :=
  (get_soldiers soldiers).foldl (fun m s => dictInsert m s.id s.handle) []

/-- `id_to_handle.get(post["soldier_id"], "Unknown")`. -/
def handleOf (soldiers : List Soldier) (p : Post) : String :=
  dictGetD (id_to_handle soldiers) p.soldier_id "Unknown"

/-! ## Aggregation engine (`_aggregate_range`) -/

/-- The running per-contributor accumulator dict value of
`_aggregate_range`: category subtotals, total units, per-day unit tally. -/
structure AggEntry where
  handle : String
  tm : Int
  se : Int
  sh : Int
  total_units : Int
  daily : Int → Int

/-- A leaderboard row: an accumulator entry plus its computed score (the
code stores the score into the same dict). -/
structure Row where
  handle : String
  tm : Int
  se : Int
  sh : Int
  total_units : Int
  daily : Int → Int
  score : ℚ

/-- The zero-initialized accumulator created when a handle is first seen. -/
def emptyEntry (h : String) : AggEntry :=
  { handle := h, tm := 0, se := 0, sh := 0, total_units := 0, daily := fun _ => 0 }

/-- One post-loop iteration applied to the entry of the post's handle:
the matching category subtotal (none if the category is not TM/SE/SH),
the total units, and the posted-date tally. -/
def addPost (e : AggEntry) (p : Post) : AggEntry :=
  { e with
    tm := if p.category = "TM" then e.tm + p.units else e.tm
    se := if p.category = "SE" then e.se + p.units else e.se
    sh := if p.category = "SH" then e.sh + p.units else e.sh
    total_units := e.total_units + p.units
    daily := fun d => if d = p.posted_at then e.daily d + p.units else e.daily d }

/-- The `if key not in dict: dict[key] = empty(key)` + `accumulate` pattern
both aggregation loops use, on an insertion-ordered entry list: accumulate
`i` into the (first) entry whose key is `ikey i`, else zero-initialize and
accumulate at the end. -/
def upsert {ε ι : Type} (key : ε → String) (empty : String → ε) (add : ε → ι → ε)
    (ikey : ι → String) : List ε → ι → List ε
  | [], i => [add (empty (ikey i)) i]
  | e :: rest, i =>
    if key e = ikey i then add e i :: rest
    else e :: upsert key empty add ikey rest i

/-- The post-loop body: skip a post whose handle lowercases to `"pgm"` or
resolves to `"Unknown"`, otherwise accumulate it under its handle. -/
def aggStep (soldiers : List Soldier) (agg : List AggEntry) (p : Post) : List AggEntry :=
  if pyLower (handleOf soldiers p) = "pgm" ∨ handleOf soldiers p = "Unknown" then agg
  else upsert AggEntry.handle emptyEntry addPost (handleOf soldiers) agg p

/-- The whole post loop of `_aggregate_range`. -/
def aggPosts (soldiers : List Soldier) (posts : List Post) : List AggEntry :=
  posts.foldl (aggStep soldiers) []

/-- `_fetch_posts_range`: posts whose posted date lies in the inclusive
range (the code widens to 00:00…23:59:59.999999 UTC, i.e. whole days). -/
def fetch_posts_range (posts : List Post) (startD endD : Int) : List Post :=
  posts.filter (fun p => startD ≤ p.posted_at && p.posted_at ≤ endD)

/-- The score pass of `_aggregate_range`: per-day QQ points over every day
of the range (missing days tally 0 units), then
`daily_points / (days_in_range * 10) if days_in_range > 0 else 0`,
float division modelled in `ℚ`. -/
def scoreEntry (startD endD : Int) (e : AggEntry) : Row :=
  let n : Int := endD - startD + 1
  let dp : Int :=
    ((List.range n.toNat).map
      (fun i : ℕ => compute_qq_points (e.daily (startD + (i : Int))))).sum
  { handle := e.handle, tm := e.tm, se := e.se, sh := e.sh, total_units := e.total_units,
    daily := e.daily,
    score := if 0 < n then (dp : ℚ) / ((n : ℚ) * 10) else 0 }

/-- The Python sort key `(-score, -total_units, handle)` compared
lexicographically, as a non-strict relation on the three projections. -/
def keyLE (sa : ℚ) (ta : Int) (ha : String) (sb : ℚ) (tb : Int) (hb : String) : Prop :=
  sb < sa ∨ (sa = sb ∧ (tb < ta ∨ (ta = tb ∧ (ha < hb ∨ ha = hb))))

instance (sa : ℚ) (ta : Int) (ha : String) (sb : ℚ) (tb : Int) (hb : String) :
    Decidable (keyLE sa ta ha sb tb hb) := by
  unfold keyLE; infer_instance

/-- Any two key triples are comparable. -/
lemma keyLE_total (sa : ℚ) (ta : Int) (ha : String) (sb : ℚ) (tb : Int) (hb : String) :
    keyLE sa ta ha sb tb hb ∨ keyLE sb tb hb sa ta ha := by
  unfold keyLE
  rcases lt_trichotomy sa sb with h | h | h
  · right; left; exact h
  · rcases lt_trichotomy ta tb with h2 | h2 | h2
    · right; right; exact ⟨h.symm, Or.inl h2⟩
    · rcases lt_trichotomy ha hb with h3 | h3 | h3
      · left; right; exact ⟨h, Or.inr ⟨h2, Or.inl h3⟩⟩
      · left; right; exact ⟨h, Or.inr ⟨h2, Or.inr h3⟩⟩
      · right; right; exact ⟨h.symm, Or.inr ⟨h2.symm, Or.inl h3⟩⟩
    · left; right; exact ⟨h, Or.inl h2⟩
  · left; left; exact h

/-- The key comparison is transitive. -/
lemma keyLE_trans (sa : ℚ) (ta : Int) (ha : String) (sb : ℚ) (tb : Int) (hb : String)
    (sc : ℚ) (tc : Int) (hc : String)
    (h1 : keyLE sa ta ha sb tb hb) (h2 : keyLE sb tb hb sc tc hc) :
    keyLE sa ta ha sc tc hc := by
  unfold keyLE at h1 h2 ⊢
  rcases h1 with h1 | ⟨hs1, h1⟩
  · rcases h2 with h2 | ⟨hs2, h2⟩
    · exact Or.inl (h2.trans h1)
    · exact Or.inl (hs2 ▸ h1)
  · rcases h2 with h2 | ⟨hs2, h2⟩
    · exact Or.inl (hs1 ▸ h2)
    · refine Or.inr ⟨hs1.trans hs2, ?_⟩
      rcases h1 with h1 | ⟨ht1, h1⟩
      · rcases h2 with h2 | ⟨ht2, h2⟩
        · exact Or.inl (h2.trans h1)
        · exact Or.inl (ht2 ▸ h1)
      · rcases h2 with h2 | ⟨ht2, h2⟩
        · exact Or.inl (ht1 ▸ h2)
        · refine Or.inr ⟨ht1.trans ht2, ?_⟩
          rcases h1 with h1 | h1
          · rcases h2 with h2 | h2
            · exact Or.inl (h1.trans h2)
            · exact Or.inl (h2 ▸ h1)
          · rcases h2 with h2 | h2
            · exact Or.inl (h1 ▸ h2)
            · exact Or.inr (h1.trans h2)

/-- The sort order of `_aggregate_range` on rows. -/
def rowLE (a b : Row) : Prop :=
  keyLE a.score a.total_units a.handle b.score b.total_units b.handle

instance : DecidableRel rowLE := fun a b => by unfold rowLE; infer_instance

instance : IsTotal Row rowLE := ⟨fun a b => keyLE_total ..⟩

instance : IsTrans Row rowLE :=
  ⟨fun a b c h1 h2 => keyLE_trans a.score a.total_units a.handle b.score b.total_units
    b.handle c.score c.total_units c.handle h1 h2⟩

/-- `_aggregate_range`: fetch, accumulate per handle, score, then sort by
`(-score, -total_units, handle)`.  Python's `list.sort` is a stable sort
by that key; `List.insertionSort` is the same stable sort. -/
def aggregate_range (soldiers : List Soldier) (posts : List Post) (startD endD : Int) :
    List Row :=
  List.insertionSort rowLE
    ((aggPosts soldiers (fetch_posts_range posts startD endD)).map (scoreEntry startD endD))

/-! ## Leaderboard builder (`get_leaderboards`) -/

/-- The running monthly-rollup accumulator: summed units per category and
in total, and the list of weekly scores seen so far. -/
structure MEntry where
  handle : String
  tm : Int
  se : Int
  sh : Int
  total_units : Int
  scores : List ℚ

/-- A monthly leaderboard row. -/
structure MRow where
  handle : String
  tm : Int
  se : Int
  sh : Int
  total_units : Int
  score : ℚ
  deriving DecidableEq

/-- The zero-initialized monthly accumulator for a handle. -/
def mEmpty (h : String) : MEntry := ⟨h, 0, 0, 0, 0, []⟩

/-- Adding one weekly row into a monthly accumulator: `+=` on each unit
field and `append` on the score list. -/
def mAdd (e : MEntry) (r : Row) : MEntry :=
  ⟨e.handle, e.tm + r.tm, e.se + r.se, e.sh + r.sh, e.total_units + r.total_units,
    e.scores ++ [r.score]⟩

/-- One rollup-loop iteration: zero-initialize the handle's entry on first
sight, add the weekly row's units, append its score. -/
def mUpdate (acc : List MEntry) (r : Row) : List MEntry :=
  upsert MEntry.handle mEmpty mAdd Row.handle acc r

/-- The sort order on monthly rows (same key as for weekly rows). -/
def mrowLE (a b : MRow) : Prop :=
  keyLE a.score a.total_units a.handle b.score b.total_units b.handle

instance : DecidableRel mrowLE := fun a b => by unfold mrowLE; infer_instance

instance : IsTotal MRow mrowLE := ⟨fun a b => keyLE_total ..⟩

instance : IsTrans MRow mrowLE :=
  ⟨fun a b c h1 h2 => keyLE_trans a.score a.total_units a.handle b.score b.total_units
    b.handle c.score c.total_units c.handle h1 h2⟩

/-- The monthly rollup of `get_leaderboards`: fold every weekly row,
score each contributor as `sum(scores) / 4 if scores else 0`, then sort by
the same three-level key. -/
def monthly_rollup (weekly : List (List Row)) : List MRow :=
  let magg := weekly.foldl (fun acc week => week.foldl mUpdate acc) []
  List.insertionSort mrowLE
    (magg.map (fun e =>
      { handle := e.handle, tm := e.tm, se := e.se, sh := e.sh,
        total_units := e.total_units,
        score := if e.scores ≠ [] then e.scores.sum / 4 else 0 }))

/-- The record returned by `get_leaderboards`. -/
structure Leaderboards where
  weeks : List (List Row)
  monthly : List MRow
  windows : List (Int × Int)

/-- `get_leaderboards`: the four weekly boards over `four_week_windows`,
plus the monthly rollup. -/
def get_leaderboards (soldiers : List Soldier) (posts : List Post) (year month : Int) :
    Leaderboards :=
  let ws := four_week_windows year month
  let weekly := ws.map (fun w => aggregate_range soldiers posts w.1 w.2)
  { weeks := weekly, monthly := monthly_rollup weekly, windows := ws }

/-- The weekly score of handle `h` on board `wk` (0 when absent; boards
list each handle at most once). -/
def week_score (wk : List Row) (h : String) : ℚ :=
  match wk.find? (fun r => r.handle == h) with
  | some r => r.score
  | none => 0

/-- The day-`d` unit total of handle `h` among the fetched posts — what
the `daily` tally of `_aggregate_range` holds for day `d`. -/
def day_units (soldiers : List Soldier) (posts : List Post) (startD endD d : Int)
    (h : String) : Int :=
  (((fetch_posts_range posts startD endD).filter
      (fun p => handleOf soldiers p == h && p.posted_at == d)).map Post.units).sum

/-- Units of the posts of `l` satisfying `pred`, summed. -/
def sumUnits (l : List Post) (pred : Post → Bool) : Int :=
  ((l.filter pred).map Post.units).sum

/-! ## Characterization of the upsert fold -/

/-- The entry the upsert fold builds for key `h`: the zero entry fed every
item of the list keyed `h`, in order. -/
def entryOf {ε ι : Type} (empty : String → ε) (add : ε → ι → ε) (ikey : ι → String)
    (l : List ι) (h : String) : ε :=
  (l.filter (fun i => ikey i == h)).foldl add (empty h)

/-- Keys after an upsert: unchanged when the item's key is present, else
the item's key is appended. -/
lemma upsert_keys {ε ι : Type} (key : ε → String) (empty : String → ε) (add : ε → ι → ε)
    (ikey : ι → String) (hkadd : ∀ e i, key (add e i) = key e)
    (hkempty : ∀ h, key (empty h) = h) (A : List ε) (i : ι) :
    (upsert key empty add ikey A i).map key =
      if ikey i ∈ A.map key then A.map key else A.map key ++ [ikey i] := by
  induction A with
  | nil => simp [upsert, hkadd, hkempty]
  | cons e rest ih =>
    simp only [upsert]
    by_cases he : key e = ikey i
    · rw [if_pos he]
      simp [hkadd, he]
    · rw [if_neg he]
      simp only [List.map_cons, ih]
      by_cases hmem : ikey i ∈ rest.map key
      · rw [if_pos hmem, if_pos (by simp [hmem])]
      · rw [if_neg hmem, if_neg ?_]
        · simp
        · simp only [List.mem_cons]
          push_neg
          exact ⟨fun hh => he hh.symm, hmem⟩

/-- Where each element of an upsert result comes from, assuming the keys
were distinct: untouched entries of other keys, the accumulated entry of
the item's key, or a fresh entry when the key was absent. -/
lemma upsert_mem {ε ι : Type} (key : ε → String) (empty : String → ε) (add : ε → ι → ε)
    (ikey : ι → String) (A : List ε) (i : ι) (hnd : (A.map key).Nodup) :
    ∀ x ∈ upsert key empty add ikey A i,
      (x ∈ A ∧ key x ≠ ikey i) ∨
      (∃ e ∈ A, key e = ikey i ∧ x = add e i) ∨
      (ikey i ∉ A.map key ∧ x = add (empty (ikey i)) i) := by
  induction A with
  | nil =>
    intro x hx
    simp only [upsert, List.mem_singleton] at hx
    exact Or.inr (Or.inr ⟨by simp, hx⟩)
  | cons e rest ih =>
    intro x hx
    have hnd2 : (rest.map key).Nodup := (List.nodup_cons.mp (by simpa using hnd)).2
    have hnotin : key e ∉ rest.map key := (List.nodup_cons.mp (by simpa using hnd)).1
    simp only [upsert] at hx
    by_cases he : key e = ikey i
    · rw [if_pos he] at hx
      rcases List.mem_cons.mp hx with rfl | hxr
      · exact Or.inr (Or.inl ⟨e, List.mem_cons_self .., he, rfl⟩)
      · have hx2 : key x ∈ rest.map key := List.mem_map_of_mem key hxr
        have hne : key x ≠ ikey i := by
          intro hcontra
          rw [← he] at hcontra
          exact hnotin (hcontra ▸ hx2)
        exact Or.inl ⟨List.mem_cons_of_mem e hxr, hne⟩
    · rw [if_neg he] at hx
      rcases List.mem_cons.mp hx with rfl | hxr
      · exact Or.inl ⟨List.mem_cons_self .., he⟩
      · rcases ih hnd2 x hxr with ⟨hmem, hne⟩ | ⟨e2, he2, hk2, hx2⟩ | ⟨hni, hx2⟩
        · exact Or.inl ⟨List.mem_cons_of_mem e hmem, hne⟩
        · exact Or.inr (Or.inl ⟨e2, List.mem_cons_of_mem e he2, hk2, hx2⟩)
        · refine Or.inr (Or.inr ⟨?_, hx2⟩)
          simp only [List.map_cons, List.mem_cons]
          push_neg
          exact ⟨fun hh => he hh.symm, hni⟩

/-- `entryOf` ignores an appended item of another key. -/
lemma entryOf_append_ne {ε ι : Type} (empty : String → ε) (add : ε → ι → ε)
    (ikey : ι → String) (l : List ι) (i : ι) (h : String) (hne : ikey i ≠ h) :
    entryOf empty add ikey (l ++ [i]) h = entryOf empty add ikey l h := by
  unfold entryOf
  rw [List.filter_append]
  simp [List.filter_cons, hne]

/-- `entryOf` absorbs an appended item of its own key at the end. -/
lemma entryOf_append_eq {ε ι : Type} (empty : String → ε) (add : ε → ι → ε)
    (ikey : ι → String) (l : List ι) (i : ι) (h : String) (heq : ikey i = h) :
    entryOf empty add ikey (l ++ [i]) h = add (entryOf empty add ikey l h) i := by
  unfold entryOf
  rw [List.filter_append, List.foldl_append]
  simp [List.filter_cons, heq]

/-- `entryOf` is the zero entry when no item has the key. -/
lemma entryOf_of_not_mem {ε ι : Type} (empty : String → ε) (add : ε → ι → ε)
    (ikey : ι → String) (l : List ι) (h : String) (hn : ∀ i ∈ l, ikey i ≠ h) :
    entryOf empty add ikey l h = empty h := by
  unfold entryOf
  have : l.filter (fun i => ikey i == h) = [] := by
    rw [List.filter_eq_nil_iff]
    intro a ha
    simpa using hn a ha
  rw [this]
  rfl

/-- Full characterization of the upsert fold from the empty dict: every
entry is the accumulation of exactly the items bearing its key, keys are
distinct, and the keys are exactly the item keys. -/
lemma upsert_fold_char {ε ι : Type} (key : ε → String) (empty : String → ε)
    (add : ε → ι → ε) (ikey : ι → String)
    (hkadd : ∀ e i, key (add e i) = key e) (hkempty : ∀ h, key (empty h) = h)
    (l : List ι) :
    (∀ x ∈ l.foldl (upsert key empty add ikey) [],
        x = entryOf empty add ikey l (key x)) ∧
    ((l.foldl (upsert key empty add ikey) []).map key).Nodup ∧
    (∀ h : String, h ∈ (l.foldl (upsert key empty add ikey) []).map key ↔
      ∃ i ∈ l, ikey i = h) := by
  induction l using List.reverseRecOn with
  | nil => simp
  | append_singleton l i ih =>
    obtain ⟨ihent, ihnd, ihmem⟩ := ih
    have hfold : (l ++ [i]).foldl (upsert key empty add ikey) [] =
        upsert key empty add ikey (l.foldl (upsert key empty add ikey) []) i := by
      rw [List.foldl_append]
      rfl
    refine ⟨?_, ?_, ?_⟩
    · intro x hx
      rw [hfold] at hx
      rcases upsert_mem key empty add ikey _ i ihnd x hx with
        ⟨hmem, hne⟩ | ⟨e2, he2, hk2, rfl⟩ | ⟨hni, rfl⟩
      · rw [entryOf_append_ne empty add ikey l i (key x) (fun hh => hne hh.symm)]
        exact ihent x hmem
      · rw [hkadd e2 i, hk2, entryOf_append_eq empty add ikey l i (ikey i) rfl,
          ← hk2, ← ihent e2 he2]
      · rw [hkadd, hkempty, entryOf_append_eq empty add ikey l i (ikey i) rfl]
        have : entryOf empty add ikey l (ikey i) = empty (ikey i) := by
          refine entryOf_of_not_mem empty add ikey l (ikey i) ?_
          intro j hj hcontra
          exact hni ((ihmem (ikey i)).mpr ⟨j, hj, hcontra⟩)
        rw [this]
    · rw [hfold, upsert_keys key empty add ikey hkadd hkempty]
      by_cases hmem : ikey i ∈ (l.foldl (upsert key empty add ikey) []).map key
      · rw [if_pos hmem]
        exact ihnd
      · rw [if_neg hmem]
        simp [List.nodup_append, ihnd, hmem]
    · intro h
      rw [hfold, upsert_keys key empty add ikey hkadd hkempty]
      by_cases hmem : ikey i ∈ (l.foldl (upsert key empty add ikey) []).map key
      · rw [if_pos hmem]
        rw [ihmem]
        constructor
        · rintro ⟨j, hj, rfl⟩
          exact ⟨j, by simp [hj], rfl⟩
        · rintro ⟨j, hj, rfl⟩
          rcases List.mem_append.mp hj with hj1 | hj2
          · exact ⟨j, hj1, rfl⟩
          · rw [List.mem_singleton.mp hj2]
            exact (ihmem (ikey i)).mp hmem
      · rw [if_neg hmem]
        simp only [List.mem_append, List.mem_singleton, ihmem]
        constructor
        · rintro (⟨j, hj, rfl⟩ | rfl)
          · exact ⟨j, by simp [hj], rfl⟩
          · exact ⟨i, by simp, rfl⟩
        · rintro ⟨j, hj, rfl⟩
          rcases hj with hj1 | rfl
          · exact Or.inl ⟨j, hj1, rfl⟩
          · exact Or.inr rfl

/-! ## Field equations for the two accumulators -/

lemma addPost_handle (e : AggEntry) (p : Post) : (addPost e p).handle = e.handle := rfl

lemma emptyEntry_handle (h : String) : (emptyEntry h).handle = h := rfl

lemma foldl_addPost_handle (l : List Post) (e : AggEntry) :
    (l.foldl addPost e).handle = e.handle := by
  induction l generalizing e with
  | nil => rfl
  | cons p rest ih => rw [List.foldl_cons, ih]; rfl

lemma foldl_addPost_tm (l : List Post) (e : AggEntry) :
    (l.foldl addPost e).tm = e.tm + sumUnits l (fun p => p.category == "TM") := by
  induction l generalizing e with
  | nil => simp [sumUnits]
  | cons p rest ih =>
    rw [List.foldl_cons, ih]
    simp only [sumUnits, List.filter_cons]
    by_cases hc : p.category = "TM"
    · simp only [hc, beq_self_eq_true, if_pos, List.map_cons, List.sum_cons, addPost]
      omega
    · have : (p.category == "TM") = false := by simpa using hc
      simp only [this, Bool.false_eq_true, if_neg, addPost, not_false_iff]
      simp [hc]

lemma foldl_addPost_se (l : List Post) (e : AggEntry) :
    (l.foldl addPost e).se = e.se + sumUnits l (fun p => p.category == "SE") := by
  induction l generalizing e with
  | nil => simp [sumUnits]
  | cons p rest ih =>
    rw [List.foldl_cons, ih]
    simp only [sumUnits, List.filter_cons]
    by_cases hc : p.category = "SE"
    · simp only [hc, beq_self_eq_true, if_pos, List.map_cons, List.sum_cons, addPost]
      omega
    · have : (p.category == "SE") = false := by simpa using hc
      simp only [this, Bool.false_eq_true, if_neg, addPost, not_false_iff]
      simp [hc]

lemma foldl_addPost_sh (l : List Post) (e : AggEntry) :
    (l.foldl addPost e).sh = e.sh + sumUnits l (fun p => p.category == "SH") := by
  induction l generalizing e with
  | nil => simp [sumUnits]
  | cons p rest ih =>
    rw [List.foldl_cons, ih]
    simp only [sumUnits, List.filter_cons]
    by_cases hc : p.category = "SH"
    · simp only [hc, beq_self_eq_true, if_pos, List.map_cons, List.sum_cons, addPost]
      omega
    · have : (p.category == "SH") = false := by simpa using hc
      simp only [this, Bool.false_eq_true, if_neg, addPost, not_false_iff]
      simp [hc]

lemma foldl_addPost_total (l : List Post) (e : AggEntry) :
    (l.foldl addPost e).total_units = e.total_units + sumUnits l (fun _ => true) := by
  induction l generalizing e with
  | nil => simp [sumUnits]
  | cons p rest ih =>
    rw [List.foldl_cons, ih]
    simp only [sumUnits, List.filter_cons, if_pos, List.map_cons, List.sum_cons, addPost]
    omega

lemma foldl_addPost_daily (l : List Post) (e : AggEntry) (d : Int) :
    (l.foldl addPost e).daily d = e.daily d + sumUnits l (fun p => p.posted_at == d) := by
  induction l generalizing e with
  | nil => simp [sumUnits]
  | cons p rest ih =>
    rw [List.foldl_cons, ih]
    simp only [sumUnits, List.filter_cons]
    by_cases hd : p.posted_at = d
    · have hb : (p.posted_at == d) = true := by simpa using hd
      simp only [hb, if_pos, List.map_cons, List.sum_cons, addPost]
      rw [if_pos hd.symm]
      omega
    · have hb : (p.posted_at == d) = false := by simpa using hd
      simp only [hb, Bool.false_eq_true, if_neg, addPost, not_false_iff]
      rw [if_neg (fun hh => hd hh.symm)]

lemma mAdd_handle (e : MEntry) (r : Row) : (mAdd e r).handle = e.handle := rfl

lemma foldl_mAdd_handle (l : List Row) (e : MEntry) :
    (l.foldl mAdd e).handle = e.handle := by
  induction l generalizing e with
  | nil => rfl
  | cons r rest ih => rw [List.foldl_cons, ih]; rfl

lemma foldl_mAdd_scores (l : List Row) (e : MEntry) :
    (l.foldl mAdd e).scores = e.scores ++ l.map Row.score := by
  induction l generalizing e with
  | nil => simp
  | cons r rest ih =>
    rw [List.foldl_cons, ih]
    simp [mAdd]

lemma foldl_mAdd_tm (l : List Row) (e : MEntry) :
    (l.foldl mAdd e).tm = e.tm + (l.map Row.tm).sum := by
  induction l generalizing e with
  | nil => simp
  | cons r rest ih =>
    rw [List.foldl_cons, ih]
    simp only [mAdd, List.map_cons, List.sum_cons]
    omega

lemma foldl_mAdd_se (l : List Row) (e : MEntry) :
    (l.foldl mAdd e).se = e.se + (l.map Row.se).sum := by
  induction l generalizing e with
  | nil => simp
  | cons r rest ih =>
    rw [List.foldl_cons, ih]
    simp only [mAdd, List.map_cons, List.sum_cons]
    omega

lemma foldl_mAdd_sh (l : List Row) (e : MEntry) :
    (l.foldl mAdd e).sh = e.sh + (l.map Row.sh).sum := by
  induction l generalizing e with
  | nil => simp
  | cons r rest ih =>
    rw [List.foldl_cons, ih]
    simp only [mAdd, List.map_cons, List.sum_cons]
    omega

lemma foldl_mAdd_total (l : List Row) (e : MEntry) :
    (l.foldl mAdd e).total_units = e.total_units + (l.map Row.total_units).sum := by
  induction l generalizing e with
  | nil => simp
  | cons r rest ih =>
    rw [List.foldl_cons, ih]
    simp only [mAdd, List.map_cons, List.sum_cons]
    omega

/-! ## The post loop as a filtered upsert fold -/

/-- The complement of the skip condition of the post loop. -/
def keepB (soldiers : List Soldier) (p : Post) : Bool :=
  !(pyLower (handleOf soldiers p) == "pgm" || handleOf soldiers p == "Unknown")

lemma keepB_iff (soldiers : List Soldier) (p : Post) :
    keepB soldiers p = true ↔
      ¬(pyLower (handleOf soldiers p) = "pgm" ∨ handleOf soldiers p = "Unknown") := by
  simp [keepB]

/-- Skipped posts contribute nothing: the post loop is the upsert fold of
the posts that pass the sentinel/Unknown check. -/
lemma aggPosts_eq_filtered (soldiers : List Soldier) (l : List Post) :
    aggPosts soldiers l =
      (l.filter (keepB soldiers)).foldl
        (upsert AggEntry.handle emptyEntry addPost (handleOf soldiers)) [] := by
  unfold aggPosts
  generalize [] = acc
  induction l generalizing acc with
  | nil => rfl
  | cons p rest ih =>
    by_cases hk : pyLower (handleOf soldiers p) = "pgm" ∨ handleOf soldiers p = "Unknown"
    · have hkb : keepB soldiers p = false := by
        rw [← Bool.not_eq_true]
        exact fun h => ((keepB_iff soldiers p).mp h) hk
      rw [List.foldl_cons, List.filter_cons, if_neg (by simp [hkb])]
      rw [show aggStep soldiers acc p = acc from if_pos hk]
      exact ih acc
    · have hkb : keepB soldiers p = true := (keepB_iff soldiers p).mpr hk
      rw [List.foldl_cons, List.filter_cons, if_pos (by simp [hkb]), List.foldl_cons]
      rw [show aggStep soldiers acc p =
        upsert AggEntry.handle emptyEntry addPost (handleOf soldiers) acc p from if_neg hk]
      exact ih _

/-- The fetched posts that pass the sentinel/Unknown check. -/
def rangePosts (soldiers : List Soldier) (posts : List Post) (startD endD : Int) :
    List Post :=
  (fetch_posts_range posts startD endD).filter (keepB soldiers)

/-! ## Characterization of `_aggregate_range` rows -/

lemma scoreEntry_handle (startD endD : Int) (e : AggEntry) :
    (scoreEntry startD endD e).handle = e.handle := rfl

lemma scoreEntry_tm (startD endD : Int) (e : AggEntry) :
    (scoreEntry startD endD e).tm = e.tm := rfl

lemma scoreEntry_se (startD endD : Int) (e : AggEntry) :
    (scoreEntry startD endD e).se = e.se := rfl

lemma scoreEntry_sh (startD endD : Int) (e : AggEntry) :
    (scoreEntry startD endD e).sh = e.sh := rfl

lemma scoreEntry_total (startD endD : Int) (e : AggEntry) :
    (scoreEntry startD endD e).total_units = e.total_units := rfl

lemma scoreEntry_daily (startD endD : Int) (e : AggEntry) :
    (scoreEntry startD endD e).daily = e.daily := rfl

lemma scoreEntry_score (startD endD : Int) (e : AggEntry) :
    (scoreEntry startD endD e).score =
      if 0 < endD - startD + 1 then
        ((((List.range (endD - startD + 1).toNat).map
            (fun i : ℕ => compute_qq_points (e.daily (startD + (i : Int))))).sum : Int) : ℚ)
          / (((endD - startD + 1 : Int) : ℚ) * 10)
      else 0 := rfl

/-- Filtering then summing units is summing over the conjunction. -/
lemma sumUnits_filter (l : List Post) (q pred : Post → Bool) :
    sumUnits (l.filter q) pred = sumUnits l (fun p => q p && pred p) := by
  unfold sumUnits
  rw [List.filter_filter]
  rw [List.filter_congr (fun a _ => Bool.and_comm (pred a) (q a))]

/-- Rows of `_aggregate_range` are the scored accumulated entries of the
kept fetched posts, one per handle occurring there. -/
lemma mem_aggregate_range (soldiers : List Soldier) (posts : List Post)
    (startD endD : Int) (r : Row)
    (hr : r ∈ aggregate_range soldiers posts startD endD) :
    ∃ e, e = entryOf emptyEntry addPost (handleOf soldiers)
        (rangePosts soldiers posts startD endD) e.handle ∧
      r = scoreEntry startD endD e ∧
      (∃ p ∈ rangePosts soldiers posts startD endD, handleOf soldiers p = e.handle) := by
  unfold aggregate_range at hr
  rw [(List.perm_insertionSort rowLE _).mem_iff] at hr
  obtain ⟨e, he, rfl⟩ := List.mem_map.mp hr
  rw [aggPosts_eq_filtered] at he
  have hre : (fetch_posts_range posts startD endD).filter (keepB soldiers) =
      rangePosts soldiers posts startD endD := rfl
  rw [hre] at he
  obtain ⟨hent, hnd, hmem⟩ := upsert_fold_char AggEntry.handle emptyEntry addPost
    (handleOf soldiers) (fun e2 p => rfl) (fun h => rfl)
    (rangePosts soldiers posts startD endD)
  exact ⟨e, hent e he, rfl, (hmem e.handle).mp (List.mem_map_of_mem _ he)⟩

/-- Members of `rangePosts` pass the sentinel/Unknown check. -/
lemma rangePosts_kept (soldiers : List Soldier) (posts : List Post)
    (startD endD : Int) (p : Post) (hp : p ∈ rangePosts soldiers posts startD endD) :
    pyLower (handleOf soldiers p) ≠ "pgm" ∧ handleOf soldiers p ≠ "Unknown" := by
  unfold rangePosts at hp
  have h2 := (keepB_iff soldiers p).mp (List.of_mem_filter hp)
  push_neg at h2
  exact h2

/-- Central description of an output row of `_aggregate_range`: its handle
is never the sentinel or unresolvable, each category subtotal sums the
matching fetched posts of its handle, total units sums them all, the daily
tally sums them per posted date, and the score is the guarded normalized
daily-points sum. -/
lemma aggregate_range_char (soldiers : List Soldier) (posts : List Post)
    (startD endD : Int) (r : Row)
    (hr : r ∈ aggregate_range soldiers posts startD endD) :
    pyLower r.handle ≠ "pgm" ∧ r.handle ≠ "Unknown" ∧
    r.tm = sumUnits (rangePosts soldiers posts startD endD)
        (fun p => handleOf soldiers p == r.handle && p.category == "TM") ∧
    r.se = sumUnits (rangePosts soldiers posts startD endD)
        (fun p => handleOf soldiers p == r.handle && p.category == "SE") ∧
    r.sh = sumUnits (rangePosts soldiers posts startD endD)
        (fun p => handleOf soldiers p == r.handle && p.category == "SH") ∧
    r.total_units = sumUnits (rangePosts soldiers posts startD endD)
        (fun p => handleOf soldiers p == r.handle) ∧
    (∀ d : Int, r.daily d = sumUnits (rangePosts soldiers posts startD endD)
        (fun p => handleOf soldiers p == r.handle && p.posted_at == d)) ∧
    r.score =
      (if 0 < endD - startD + 1 then
        ((((List.range (endD - startD + 1).toNat).map
            (fun i : ℕ => compute_qq_points (r.daily (startD + (i : Int))))).sum : Int) : ℚ)
          / (((endD - startD + 1 : Int) : ℚ) * 10)
      else 0) := by
  obtain ⟨e, hent, rfl, p0, hp0, hp0h⟩ := mem_aggregate_range soldiers posts startD endD r hr
  have hkept := rangePosts_kept soldiers posts startD endD p0 hp0
  rw [hp0h] at hkept
  have hhandle : (scoreEntry startD endD e).handle = e.handle := rfl
  rw [hhandle]
  have hown : ∀ (f : AggEntry → Int) (pred : Post → Bool),
      (∀ (l : List Post) (e0 : AggEntry), f (l.foldl addPost e0) = f e0 + sumUnits l pred) →
      f e = f (emptyEntry e.handle) +
        sumUnits (rangePosts soldiers posts startD endD)
          (fun p => handleOf soldiers p == e.handle && pred p) := by
    intro f pred hf
    conv_lhs => rw [hent]
    unfold entryOf
    rw [hf, ← sumUnits_filter]
  refine ⟨hkept.1, hkept.2, ?_, ?_, ?_, ?_, ?_, ?_⟩
  · rw [scoreEntry_tm,
      hown AggEntry.tm (fun p => p.category == "TM") foldl_addPost_tm]
    simp [emptyEntry]
  · rw [scoreEntry_se,
      hown AggEntry.se (fun p => p.category == "SE") foldl_addPost_se]
    simp [emptyEntry]
  · rw [scoreEntry_sh,
      hown AggEntry.sh (fun p => p.category == "SH") foldl_addPost_sh]
    simp [emptyEntry]
  · rw [scoreEntry_total]
    have := hown AggEntry.total_units (fun _ => true) foldl_addPost_total
    rw [this]
    simp only [emptyEntry, Bool.and_true, zero_add]
  · intro d
    rw [scoreEntry_daily]
    have h2 : e.daily d = (emptyEntry e.handle).daily d +
        sumUnits (rangePosts soldiers posts startD endD)
          (fun p => handleOf soldiers p == e.handle && p.posted_at == d) :=
      hown (fun e0 => e0.daily d) (fun p => p.posted_at == d)
        (fun l e0 => foldl_addPost_daily l e0 d)
    rw [h2]
    simp [emptyEntry]
  · rw [scoreEntry_daily]
    exact scoreEntry_score startD endD e

/-! ## Claim C3 -/

lemma compute_qq_points_nonneg (u : Int) : 0 ≤ compute_qq_points u :=
  le_qqLookup u 0 QQ_THRESHOLDS (by decide) (by decide)

lemma compute_qq_points_le_ten (u : Int) : compute_qq_points u ≤ 10 :=
  qqLookup_le u QQ_THRESHOLDS (by decide)

/-- For a handle that passes the sentinel/Unknown check, the per-day sum
over the kept fetched posts is `day_units` (over all fetched posts). -/
lemma day_units_eq_sumUnits (soldiers : List Soldier) (posts : List Post)
    (startD endD d : Int) (h : String)
    (hk : pyLower h ≠ "pgm" ∧ h ≠ "Unknown") :
    sumUnits (rangePosts soldiers posts startD endD)
        (fun p => handleOf soldiers p == h && p.posted_at == d) =
      day_units soldiers posts startD endD d h := by
  unfold day_units rangePosts sumUnits
  rw [List.filter_filter]
  congr 1
  apply congrArg
  apply List.filter_congr
  intro p hp
  by_cases hh : handleOf soldiers p = h
  · have hkb : keepB soldiers p = true := by
      rw [keepB_iff, hh]
      push_neg
      exact hk
    simp [hkb, hh]
  · have hb : (handleOf soldiers p == h) = false := by simpa using hh
    simp [hb]

/-- Score specification of an `_aggregate_range` row: normalized daily
points of the row's handle, guarded against empty ranges, within `[0,1]`. -/
lemma aggregate_range_score_spec (soldiers : List Soldier) (posts : List Post)
    (startD endD : Int) (r : Row)
    (hr : r ∈ aggregate_range soldiers posts startD endD) :
    r.score =
      (if 0 < endD - startD + 1 then
        ((((List.range (endD - startD + 1).toNat).map (fun i : ℕ =>
            compute_qq_points
              (day_units soldiers posts startD endD (startD + (i : Int)) r.handle))).sum : Int) : ℚ)
          / (((endD - startD + 1 : Int) : ℚ) * 10)
      else 0) ∧
    0 ≤ r.score ∧ r.score ≤ 1 ∧ (endD - startD + 1 ≤ 0 → r.score = 0) := by
  obtain ⟨hpgm, hunk, htm, hse, hsh, htot, hdaily, hscore⟩ :=
    aggregate_range_char soldiers posts startD endD r hr
  have hdu : ∀ d : Int, r.daily d = day_units soldiers posts startD endD d r.handle := by
    intro d
    rw [hdaily d, day_units_eq_sumUnits soldiers posts startD endD d r.handle ⟨hpgm, hunk⟩]
  have hform : r.score =
      (if 0 < endD - startD + 1 then
        ((((List.range (endD - startD + 1).toNat).map (fun i : ℕ =>
            compute_qq_points
              (day_units soldiers posts startD endD (startD + (i : Int)) r.handle))).sum : Int) : ℚ)
          / (((endD - startD + 1 : Int) : ℚ) * 10)
      else 0) := by
    rw [hscore]
    by_cases hn : 0 < endD - startD + 1
    · rw [if_pos hn, if_pos hn]
      congr 3
      apply List.map_congr_left
      intro i hi
      rw [hdu]
    · rw [if_neg hn, if_neg hn]
  have hbounds : 0 ≤ r.score ∧ r.score ≤ 1 := by
    rw [hscore]
    by_cases hn : 0 < endD - startD + 1
    · rw [if_pos hn]
      have hS0 : 0 ≤ ((List.range (endD - startD + 1).toNat).map (fun i : ℕ =>
          compute_qq_points (r.daily (startD + (i : Int))))).sum :=
        List.sum_nonneg (fun x hx => by
          obtain ⟨i, hi, rfl⟩ := List.mem_map.mp hx
          exact compute_qq_points_nonneg _)
      have hS1 : ((List.range (endD - startD + 1).toNat).map (fun i : ℕ =>
          compute_qq_points (r.daily (startD + (i : Int))))).sum ≤
            (endD - startD + 1) * 10 := by
        have hle := List.sum_le_card_nsmul ((List.range (endD - startD + 1).toNat).map
          (fun i : ℕ => compute_qq_points (r.daily (startD + (i : Int))))) (10 : Int)
          (fun x hx => by
            obtain ⟨i, hi, rfl⟩ := List.mem_map.mp hx
            exact compute_qq_points_le_ten _)
        rw [List.length_map, List.length_range, nsmul_eq_mul,
          Int.toNat_of_nonneg (by omega)] at hle
        exact hle
      have hpos : (0 : ℚ) < ((endD - startD + 1 : Int) : ℚ) * 10 := by
        have : (0 : ℚ) < ((endD - startD + 1 : Int) : ℚ) := by exact_mod_cast hn
        linarith
      constructor
      · apply div_nonneg _ (le_of_lt hpos)
        exact_mod_cast hS0
      · rw [div_le_one hpos]
        have : (((endD - startD + 1) * 10 : Int) : ℚ) =
            ((endD - startD + 1 : Int) : ℚ) * 10 := by push_cast; ring
        rw [← this]
        exact_mod_cast hS1
    · rw [if_neg hn]
      norm_num
  refine ⟨hform, hbounds.1, hbounds.2, ?_⟩
  intro hz
  rw [hscore, if_neg (by omega)]

/-- C3: every row's score is the sum, over every day of the inclusive
range (absent days contributing `computeDailyPoints 0 = 0`), of the daily
points of that contributor's unit total for the day, divided by
`days * 10`; the score lies in `[0, 1]`; and a range with no days yields
score 0 rather than a division by zero. -/
theorem C3_aggregate_range_score (soldiers : List Soldier) (posts : List Post)
    (startD endD : Int) (r : Row)
    (hr : r ∈ aggregate_range soldiers posts startD endD) :
    r.score =
      (if 0 < endD - startD + 1 then
        ((((List.range (endD - startD + 1).toNat).map (fun i : ℕ =>
            compute_qq_points
              (day_units soldiers posts startD endD (startD + (i : Int)) r.handle))).sum : Int) : ℚ)
          / (((endD - startD + 1 : Int) : ℚ) * 10)
      else 0) ∧
    0 ≤ r.score ∧ r.score ≤ 1 ∧ (endD - startD + 1 ≤ 0 → r.score = 0) :=
  aggregate_range_score_spec soldiers posts startD endD r hr

/-- Witness for C3: a 7-day week (days 0…6) with daily units
`[0, 2, 5, 8, 11, 15, 20]`, giving daily points `[0, 1, 2, 3, 4, 5, 6]`,
sum 21, and score `21 / 70 = 3/10`. -/
theorem C3_aggregate_range_score_witness :
    ∃ r ∈ aggregate_range [⟨"s1", "ada"⟩]
        [⟨"s1", "SH", 2, 1⟩, ⟨"s1", "SH", 5, 2⟩, ⟨"s1", "SH", 8, 3⟩,
         ⟨"s1", "SH", 11, 4⟩, ⟨"s1", "SH", 15, 5⟩, ⟨"s1", "SH", 20, 6⟩] 0 6,
      r.score = 3 / 10 ∧ 0 ≤ r.score ∧ r.score ≤ 1 := by
  obtain ⟨r, hmem, hh⟩ : ∃ r ∈ aggregate_range [⟨"s1", "ada"⟩]
      [⟨"s1", "SH", 2, 1⟩, ⟨"s1", "SH", 5, 2⟩, ⟨"s1", "SH", 8, 3⟩,
       ⟨"s1", "SH", 11, 4⟩, ⟨"s1", "SH", 15, 5⟩, ⟨"s1", "SH", 20, 6⟩] 0 6,
      r.handle = "ada" := by decide
  obtain ⟨hform, h0, h1, _⟩ := C3_aggregate_range_score _ _ 0 6 r hmem
  refine ⟨r, hmem, ?_, h0, h1⟩
  rw [hform, hh]
  rw [show ((List.range ((6 : Int) - 0 + 1).toNat).map (fun i : ℕ =>
      compute_qq_points
        (day_units [⟨"s1", "ada"⟩]
          [⟨"s1", "SH", 2, 1⟩, ⟨"s1", "SH", 5, 2⟩, ⟨"s1", "SH", 8, 3⟩,
           ⟨"s1", "SH", 11, 4⟩, ⟨"s1", "SH", 15, 5⟩, ⟨"s1", "SH", 20, 6⟩] 0 6
          (0 + (i : Int)) "ada"))).sum = 21 from by decide]
  norm_num

/-! ## Monthly rollup characterization -/

lemma mUpdate_eq_upsert : mUpdate = upsert MEntry.handle mEmpty mAdd Row.handle := rfl

/-- The nested weeks/rows loop of the rollup is one fold over the
flattened rows. -/
lemma foldl_foldl_flatten (weekly : List (List Row)) (acc : List MEntry) :
    weekly.foldl (fun a wk => wk.foldl mUpdate a) acc =
      weekly.flatten.foldl mUpdate acc := by
  induction weekly generalizing acc with
  | nil => rfl
  | cons w ws ih => rw [List.foldl_cons, List.flatten_cons, List.foldl_append, ih]

/-- Rows of the monthly rollup are the per-handle accumulations of all
weekly rows, one per handle occurring in some week. -/
lemma mem_monthly_rollup (weekly : List (List Row)) (x : MRow)
    (hx : x ∈ monthly_rollup weekly) :
    ∃ e, e = entryOf mEmpty mAdd Row.handle weekly.flatten e.handle ∧
      x = ⟨e.handle, e.tm, e.se, e.sh, e.total_units,
        if e.scores ≠ [] then e.scores.sum / 4 else 0⟩ ∧
      (∃ rr ∈ weekly.flatten, rr.handle = e.handle) := by
  unfold monthly_rollup at hx
  rw [(List.perm_insertionSort mrowLE _).mem_iff] at hx
  obtain ⟨e, he, rfl⟩ := List.mem_map.mp hx
  rw [foldl_foldl_flatten, mUpdate_eq_upsert] at he
  obtain ⟨hent, hnd, hmem⟩ := upsert_fold_char MEntry.handle mEmpty mAdd Row.handle
    (fun e2 rr => rfl) (fun h => rfl) weekly.flatten
  exact ⟨e, hent e he, rfl, (hmem e.handle).mp (List.mem_map_of_mem _ he)⟩

lemma leaderboards_weeks (soldiers : List Soldier) (posts : List Post) (y m : Int) :
    (get_leaderboards soldiers posts y m).weeks =
      (four_week_windows y m).map (fun w => aggregate_range soldiers posts w.1 w.2) := rfl

lemma leaderboards_monthly (soldiers : List Soldier) (posts : List Post) (y m : Int) :
    (get_leaderboards soldiers posts y m).monthly =
      monthly_rollup
        ((four_week_windows y m).map (fun w => aggregate_range soldiers posts w.1 w.2)) := rfl

/-- Every row of a weekly board of `get_leaderboards` is an
`aggregate_range` output over some window. -/
lemma mem_weeks_mem_aggregate (soldiers : List Soldier) (posts : List Post) (y m : Int)
    (rr : Row) (hrr : rr ∈ ((get_leaderboards soldiers posts y m).weeks).flatten) :
    ∃ w : Int × Int, rr ∈ aggregate_range soldiers posts w.1 w.2 := by
  rw [leaderboards_weeks] at hrr
  obtain ⟨wk, hwk, hr2⟩ := List.mem_flatten.mp hrr
  obtain ⟨w, hw, rfl⟩ := List.mem_map.mp hwk
  exact ⟨w, hr2⟩

/-! ## Claim C6 -/

/-- Handles are unique within an `_aggregate_range` output. -/
lemma aggregate_range_handles_nodup (soldiers : List Soldier) (posts : List Post)
    (startD endD : Int) :
    ((aggregate_range soldiers posts startD endD).map Row.handle).Nodup := by
  unfold aggregate_range
  rw [((List.perm_insertionSort rowLE _).map Row.handle).nodup_iff, List.map_map]
  have hcomp : (Row.handle ∘ scoreEntry startD endD) = AggEntry.handle :=
    funext (fun e => rfl)
  rw [hcomp, aggPosts_eq_filtered]
  exact (upsert_fold_char AggEntry.handle emptyEntry addPost (handleOf soldiers)
    (fun e2 p => rfl) (fun h => rfl) _).2.1

/-- C6: weekly boards and the monthly board are sorted by descending
score, then descending total units, then ascending handle; that key order
is total; output handles are unique; consequently, of two rows with equal
score and equal total units, the one with the lexicographically smaller
handle comes first. -/
theorem C6_leaderboard_sort_order (soldiers : List Soldier) (posts : List Post)
    (startD endD y m : Int) :
    List.Sorted rowLE (aggregate_range soldiers posts startD endD) ∧
    List.Sorted mrowLE ((get_leaderboards soldiers posts y m).monthly) ∧
    ((aggregate_range soldiers posts startD endD).map Row.handle).Nodup ∧
    (∀ a b : Row, rowLE a b ∨ rowLE b a) ∧
    List.Pairwise
      (fun a b : Row => a.score = b.score → a.total_units = b.total_units →
        (a.handle < b.handle ∨ a.handle = b.handle))
      (aggregate_range soldiers posts startD endD) := by
  refine ⟨List.sorted_insertionSort rowLE _, ?_,
    aggregate_range_handles_nodup soldiers posts startD endD,
    fun a b => keyLE_total a.score a.total_units a.handle b.score b.total_units b.handle,
    ?_⟩
  · rw [leaderboards_monthly]
    exact List.sorted_insertionSort mrowLE _
  · refine List.Pairwise.imp ?_ (List.sorted_insertionSort rowLE
      ((aggPosts soldiers (fetch_posts_range posts startD endD)).map
        (scoreEntry startD endD)))
    intro a b hab
    unfold rowLE keyLE at hab
    intro hs ht
    rcases hab with h | ⟨he, h⟩
    · rw [hs] at h
      exact absurd h (lt_irrefl _)
    · rcases h with h | ⟨he2, h⟩
      · rw [ht] at h
        exact absurd h (lt_irrefl _)
      · exact h

/-- Witness for C6 at concrete inputs. -/
theorem C6_leaderboard_sort_order_witness :
    List.Sorted rowLE (aggregate_range [⟨"s1", "ada"⟩] [⟨"s1", "SH", 2, 1⟩] 0 6) ∧
    List.Sorted mrowLE
      ((get_leaderboards [⟨"s1", "ada"⟩] [⟨"s1", "SH", 2, 1⟩] 2026 1).monthly) :=
  ⟨(C6_leaderboard_sort_order [⟨"s1", "ada"⟩] [⟨"s1", "SH", 2, 1⟩] 0 6 2026 1).1,
   (C6_leaderboard_sort_order [⟨"s1", "ada"⟩] [⟨"s1", "SH", 2, 1⟩] 0 6 2026 1).2.1⟩

/-! ## Claim C7 -/

/-- C7: no `aggregate_range` row, weekly board row, or monthly board row
carries the sentinel handle (case-insensitively), and posts whose owner
does not resolve are excluded: dropping them beforehand leaves the output
unchanged. -/
theorem C7_sentinel_excluded (soldiers : List Soldier) (posts : List Post)
    (startD endD y m : Int) :
    (∀ r ∈ aggregate_range soldiers posts startD endD, pyLower r.handle ≠ "pgm") ∧
    (∀ wk ∈ (get_leaderboards soldiers posts y m).weeks, ∀ r ∈ wk,
      pyLower r.handle ≠ "pgm") ∧
    (∀ x ∈ (get_leaderboards soldiers posts y m).monthly, pyLower x.handle ≠ "pgm") ∧
    aggregate_range soldiers posts startD endD =
      aggregate_range soldiers (posts.filter (keepB soldiers)) startD endD := by
  have hweek : ∀ (a b : Int), ∀ r ∈ aggregate_range soldiers posts a b,
      pyLower r.handle ≠ "pgm" := by
    intro a b r hr
    exact (aggregate_range_char soldiers posts a b r hr).1
  refine ⟨hweek startD endD, ?_, ?_, ?_⟩
  · intro wk hwk r hr
    rw [leaderboards_weeks] at hwk
    obtain ⟨w, hw, rfl⟩ := List.mem_map.mp hwk
    exact hweek w.1 w.2 r hr
  · intro x hx
    rw [leaderboards_monthly] at hx
    obtain ⟨e, hent, rfl, rr, hrr, hrrh⟩ := mem_monthly_rollup _ x hx
    obtain ⟨w, hw⟩ := mem_weeks_mem_aggregate soldiers posts y m rr
      (by rw [leaderboards_weeks]; exact hrr)
    have := hweek w.1 w.2 rr hw
    rw [hrrh] at this
    exact this
  · have hlist : rangePosts soldiers (posts.filter (keepB soldiers)) startD endD =
        rangePosts soldiers posts startD endD := by
      unfold rangePosts fetch_posts_range
      rw [List.filter_filter, List.filter_filter, List.filter_filter]
      apply List.filter_congr
      intro p hp
      cases hk : keepB soldiers p <;>
        cases hr2 : (startD ≤ p.posted_at && p.posted_at ≤ endD) <;> simp [hk, hr2]
    unfold aggregate_range
    rw [aggPosts_eq_filtered, aggPosts_eq_filtered]
    have h1 : (fetch_posts_range posts startD endD).filter (keepB soldiers) =
        rangePosts soldiers posts startD endD := rfl
    have h2 : (fetch_posts_range (posts.filter (keepB soldiers)) startD endD).filter
        (keepB soldiers) = rangePosts soldiers (posts.filter (keepB soldiers)) startD endD :=
      rfl
    rw [h1, h2, hlist]

/-- Witness for C7: dropping the unresolvable and sentinel-owned posts of
a concrete store leaves the aggregation unchanged. -/
theorem C7_sentinel_excluded_witness :
    aggregate_range [⟨"s1", "PGM"⟩, ⟨"s2", "ada"⟩]
        [⟨"s1", "SH", 2, 1⟩, ⟨"s2", "SH", 3, 1⟩, ⟨"zz", "SH", 4, 1⟩] 0 6 =
      aggregate_range [⟨"s1", "PGM"⟩, ⟨"s2", "ada"⟩]
        (List.filter (keepB [⟨"s1", "PGM"⟩, ⟨"s2", "ada"⟩])
          [⟨"s1", "SH", 2, 1⟩, ⟨"s2", "SH", 3, 1⟩, ⟨"zz", "SH", 4, 1⟩]) 0 6 :=
  (C7_sentinel_excluded [⟨"s1", "PGM"⟩, ⟨"s2", "ada"⟩]
    [⟨"s1", "SH", 2, 1⟩, ⟨"s2", "SH", 3, 1⟩, ⟨"zz", "SH", 4, 1⟩] 0 6 2026 1).2.2.2

/-! ## Claims C8, C9 -/

/-- Units split across the three category buckets plus the
unrecognized-category bucket. -/
lemma sumUnits_partition (l : List Post) (q : Post → Bool) :
    sumUnits l q =
      sumUnits l (fun p => q p && p.category == "TM") +
      sumUnits l (fun p => q p && p.category == "SE") +
      sumUnits l (fun p => q p && p.category == "SH") +
      sumUnits l (fun p => q p &&
        !(p.category == "TM" || p.category == "SE" || p.category == "SH")) := by
  induction l with
  | nil => simp [sumUnits]
  | cons p rest ih =>
    simp only [sumUnits, List.filter_cons] at ih ⊢
    cases hq : q p
    · simp only [Bool.false_and, Bool.false_eq_true, if_neg, not_false_iff]
      exact ih
    · simp only [Bool.true_and, if_pos]
      cases h1 : (p.category == "TM")
      · cases h2 : (p.category == "SE")
        · cases h3 : (p.category == "SH")
          · simp only [h1, h2, h3, Bool.or_false, Bool.not_false, Bool.false_eq_true,
              if_neg, not_false_iff, if_pos, List.map_cons, List.sum_cons]
            omega
          · simp only [h1, h2, h3, Bool.or_true, Bool.false_or, Bool.not_true,
              Bool.false_eq_true, if_neg, not_false_iff, if_pos, List.map_cons,
              List.sum_cons]
            omega
        · have h3 : (p.category == "SH") = false := by
            rw [beq_iff_eq] at h2
            simp [h2]
          simp only [h1, h2, h3, Bool.or_true, Bool.true_or, Bool.false_or, Bool.not_true,
            Bool.false_eq_true, if_neg, not_false_iff, if_pos, List.map_cons, List.sum_cons]
          omega
      · have h2 : (p.category == "SE") = false := by
          rw [beq_iff_eq] at h1
          simp [h1]
        have h3 : (p.category == "SH") = false := by
          rw [beq_iff_eq] at h1
          simp [h1]
        simp only [h1, h2, h3, Bool.true_or, Bool.not_true, Bool.false_eq_true, if_neg,
          not_false_iff, if_pos, List.map_cons, List.sum_cons]
        omega

/-- C8 (amended): a submission with a category outside TM/SE/SH is
processed without error — its units enter `total_units` (and the daily
tally) but no category subtotal, so each row's total is the three
subtotals plus exactly the unrecognized-category units of its handle. -/
theorem C8_invalid_category_amended (soldiers : List Soldier) (posts : List Post)
    (startD endD : Int) (r : Row) (hr : r ∈ aggregate_range soldiers posts startD endD) :
    r.total_units = r.tm + r.se + r.sh +
      sumUnits (rangePosts soldiers posts startD endD)
        (fun p => handleOf soldiers p == r.handle &&
          !(p.category == "TM" || p.category == "SE" || p.category == "SH")) := by
  obtain ⟨hpgm, hunk, htm, hse, hsh, htot, hdaily, hscore⟩ :=
    aggregate_range_char soldiers posts startD endD r hr
  rw [htot, htm, hse, hsh]
  exact sumUnits_partition (rangePosts soldiers posts startD endD)
    (fun p => handleOf soldiers p == r.handle)

/-- C8 fails as stated: `_aggregate_range` has no raise path for a
category outside TM/SE/SH (the `if/elif` chain has no `else`), so such a
submission is silently processed — here a 5-unit post of category `"XX"`
produces a normal row with `total_units = 5` and all subtotals 0 instead
of an error. -/
theorem C8_counterexample :
    ∃ r ∈ aggregate_range [⟨"s1", "ada"⟩] [⟨"s1", "XX", 5, 100⟩] 100 100,
      r.total_units = 5 ∧ r.tm = 0 ∧ r.se = 0 ∧ r.sh = 0 := by
  decide

/-- Witness for C8 (amended) at the counterexample input. -/
theorem C8_invalid_category_amended_witness :
    ∃ r ∈ aggregate_range [⟨"s1", "ada"⟩] [⟨"s1", "XX", 5, 100⟩] 100 100,
      r.total_units = r.tm + r.se + r.sh +
        sumUnits (rangePosts [⟨"s1", "ada"⟩] [⟨"s1", "XX", 5, 100⟩] 100 100)
          (fun p => handleOf [⟨"s1", "ada"⟩] p == r.handle &&
            !(p.category == "TM" || p.category == "SE" || p.category == "SH")) := by
  obtain ⟨r, hmem, hh⟩ : ∃ r ∈ aggregate_range [⟨"s1", "ada"⟩]
      [⟨"s1", "XX", 5, 100⟩] 100 100, r.handle = "ada" := by decide
  exact ⟨r, hmem, C8_invalid_category_amended [⟨"s1", "ada"⟩]
    [⟨"s1", "XX", 5, 100⟩] 100 100 r hmem⟩

/-- Row sums split when each row's total is its three subtotals. -/
lemma sum_total_split (l : List Row)
    (hl : ∀ r ∈ l, r.total_units = r.tm + r.se + r.sh) :
    (l.map Row.total_units).sum =
      (l.map Row.tm).sum + (l.map Row.se).sum + (l.map Row.sh).sum := by
  induction l with
  | nil => simp
  | cons r rest ih =>
    simp only [List.map_cons, List.sum_cons]
    rw [hl r (List.mem_cons_self ..), ih (fun x hx => hl x (List.mem_cons_of_mem r hx))]
    ring

/-- A unit sum over posts with nonnegative units is nonnegative. -/
lemma sumUnits_nonneg (l : List Post) (pred : Post → Bool)
    (h : ∀ p ∈ l, 0 ≤ p.units) : 0 ≤ sumUnits l pred :=
  List.sum_nonneg (fun x hx => by
    obtain ⟨p, hp, rfl⟩ := List.mem_map.mp hx
    exact h p (List.mem_of_mem_filter hp))

/-- Members of `rangePosts` are posts. -/
lemma rangePosts_subset (soldiers : List Soldier) (posts : List Post)
    (startD endD : Int) (p : Post) (hp : p ∈ rangePosts soldiers posts startD endD) :
    p ∈ posts :=
  List.mem_of_mem_filter (List.mem_of_mem_filter hp)

/-- When every post's category is canonical, each row's total is its three
subtotals (shared by C9's weekly and monthly parts). -/
lemma aggregate_total_eq (soldiers : List Soldier) (posts : List Post)
    (startD endD : Int)
    (hcat : ∀ p ∈ posts, p.category = "TM" ∨ p.category = "SE" ∨ p.category = "SH")
    (r : Row) (hr : r ∈ aggregate_range soldiers posts startD endD) :
    r.total_units = r.tm + r.se + r.sh := by
  obtain ⟨hpgm, hunk, htm, hse, hsh, htot, hdaily, hscore⟩ :=
    aggregate_range_char soldiers posts startD endD r hr
  rw [htot, htm, hse, hsh,
    sumUnits_partition (rangePosts soldiers posts startD endD)
      (fun p => handleOf soldiers p == r.handle)]
  have hzero : sumUnits (rangePosts soldiers posts startD endD)
      (fun p => handleOf soldiers p == r.handle &&
        !(p.category == "TM" || p.category == "SE" || p.category == "SH")) = 0 := by
    unfold sumUnits
    have : (rangePosts soldiers posts startD endD).filter
        (fun p => handleOf soldiers p == r.handle &&
          !(p.category == "TM" || p.category == "SE" || p.category == "SH")) = [] := by
      rw [List.filter_eq_nil_iff]
      intro p hp
      rcases hcat p (rangePosts_subset soldiers posts startD endD p hp) with h | h | h <;>
        simp [h]
    rw [this]
    rfl
  rw [hzero, add_zero]

/-- C9: with only canonical categories, `total_units = tm + se + sh` on
every `aggregate_range` row, and the monthly rollup (summing each field
across weeks) preserves it; without that precondition (given the data
model's nonnegative unit weights) `tm + se + sh ≤ total_units`, since
unrecognized-category units reach `total_units` but no subtotal. -/
theorem C9_total_units_invariant (soldiers : List Soldier) (posts : List Post) :
    (∀ startD endD : Int,
      (∀ p ∈ posts, p.category = "TM" ∨ p.category = "SE" ∨ p.category = "SH") →
      ∀ r ∈ aggregate_range soldiers posts startD endD,
        r.total_units = r.tm + r.se + r.sh) ∧
    (∀ y m : Int,
      (∀ p ∈ posts, p.category = "TM" ∨ p.category = "SE" ∨ p.category = "SH") →
      ∀ x ∈ (get_leaderboards soldiers posts y m).monthly,
        x.total_units = x.tm + x.se + x.sh) ∧
    (∀ startD endD : Int, (∀ p ∈ posts, 0 ≤ p.units) →
      ∀ r ∈ aggregate_range soldiers posts startD endD,
        r.tm + r.se + r.sh ≤ r.total_units) := by
  refine ⟨fun startD endD hcat => aggregate_total_eq soldiers posts startD endD hcat,
    ?_, ?_⟩
  · intro y m hcat x hx
    rw [leaderboards_monthly] at hx
    obtain ⟨e, hent, rfl, rr0, hrr0, hrr0h⟩ := mem_monthly_rollup _ x hx
    have hrows : ∀ rr ∈ (((four_week_windows y m).map
        (fun w => aggregate_range soldiers posts w.1 w.2)).flatten.filter
          (fun rr => rr.handle == e.handle)),
        rr.total_units = rr.tm + rr.se + rr.sh := by
      intro rr hrr
      have hrr2 := List.mem_of_mem_filter hrr
      obtain ⟨wk, hwk, hr3⟩ := List.mem_flatten.mp hrr2
      obtain ⟨w, hw, rfl⟩ := List.mem_map.mp hwk
      exact aggregate_total_eq soldiers posts w.1 w.2 hcat rr hr3
    show e.total_units = e.tm + e.se + e.sh
    rw [hent]
    unfold entryOf
    rw [foldl_mAdd_total, foldl_mAdd_tm, foldl_mAdd_se, foldl_mAdd_sh]
    have hsplit := sum_total_split _ hrows
    simp only [mEmpty, zero_add]
    rw [hsplit]
  · intro startD endD hunits r hr
    obtain ⟨hpgm, hunk, htm, hse, hsh, htot, hdaily, hscore⟩ :=
      aggregate_range_char soldiers posts startD endD r hr
    rw [htot, htm, hse, hsh,
      sumUnits_partition (rangePosts soldiers posts startD endD)
        (fun p => handleOf soldiers p == r.handle)]
    have := sumUnits_nonneg (rangePosts soldiers posts startD endD)
      (fun p => handleOf soldiers p == r.handle &&
        !(p.category == "TM" || p.category == "SE" || p.category == "SH"))
      (fun p hp => hunits p (rangePosts_subset soldiers posts startD endD p hp))
    omega

/-- Witness for C9: one TM post and its auto SE companion. -/
theorem C9_total_units_invariant_witness :
    ∃ r ∈ aggregate_range [⟨"s1", "ada"⟩]
        [⟨"s1", "TM", 1, 0⟩, ⟨"s1", "SE", 6, 0⟩] 0 6,
      r.total_units = r.tm + r.se + r.sh := by
  obtain ⟨r, hmem, hh⟩ : ∃ r ∈ aggregate_range [⟨"s1", "ada"⟩]
      [⟨"s1", "TM", 1, 0⟩, ⟨"s1", "SE", 6, 0⟩] 0 6, r.handle = "ada" := by decide
  exact ⟨r, hmem,
    (C9_total_units_invariant [⟨"s1", "ada"⟩] [⟨"s1", "TM", 1, 0⟩, ⟨"s1", "SE", 6, 0⟩]).1
      0 6 (by decide) r hmem⟩

/-! ## Claim C2 -/

/-- On a board with unique handles, the score-sum of the rows of handle
`h` is the find-based weekly score. -/
lemma week_filter_score (wk : List Row) (h : String)
    (hnd : (wk.map Row.handle).Nodup) :
    ((wk.filter (fun r => r.handle == h)).map Row.score).sum = week_score wk h := by
  induction wk with
  | nil => simp [week_score, List.find?]
  | cons r rest ih =>
    have hnd2 : (rest.map Row.handle).Nodup := (List.nodup_cons.mp (by simpa using hnd)).2
    have hnotin : r.handle ∉ rest.map Row.handle :=
      (List.nodup_cons.mp (by simpa using hnd)).1
    by_cases hh : r.handle = h
    · have hb : (r.handle == h) = true := by simpa using hh
      have hrest : rest.filter (fun x => x.handle == h) = [] := by
        rw [List.filter_eq_nil_iff]
        intro x hx
        simp only [beq_iff_eq]
        intro hxh
        exact hnotin ((hh.trans hxh.symm) ▸ List.mem_map_of_mem Row.handle hx)
      rw [List.filter_cons, if_pos (by simp [hb]), List.map_cons, List.sum_cons, hrest]
      unfold week_score
      have hf : List.find? (fun x => x.handle == h) (r :: rest) = some r :=
        List.find?_cons_of_pos rest hb
      rw [hf]
      simp
    · have hb : (r.handle == h) = false := by simpa using hh
      rw [List.filter_cons, if_neg (by simp [hb])]
      unfold week_score
      have hf : List.find? (fun x => x.handle == h) (r :: rest) =
          List.find? (fun x => x.handle == h) rest :=
        List.find?_cons_of_neg rest (by simp [hb])
      rw [hf]
      exact ih hnd2

/-- On a board with unique handles, the weekly score of a present handle
is that row's score. -/
lemma week_score_eq_of_mem (wk : List Row) (h : String)
    (hnd : (wk.map Row.handle).Nodup) (r : Row) (hr : r ∈ wk) (hrh : r.handle = h) :
    week_score wk h = r.score := by
  induction wk with
  | nil => exact absurd hr (List.not_mem_nil r)
  | cons r1 rest ih =>
    have hnd2 : (rest.map Row.handle).Nodup := (List.nodup_cons.mp (by simpa using hnd)).2
    have hnotin : r1.handle ∉ rest.map Row.handle :=
      (List.nodup_cons.mp (by simpa using hnd)).1
    by_cases hh : r1.handle = h
    · unfold week_score
      have hf : List.find? (fun x => x.handle == h) (r1 :: rest) = some r1 :=
        List.find?_cons_of_pos rest (by simpa using hh)
      rw [hf]
      rcases List.mem_cons.mp hr with rfl | hr2
      · rfl
      · exact absurd ((hh.trans hrh.symm) ▸ List.mem_map_of_mem Row.handle hr2) hnotin
    · unfold week_score
      have hf : List.find? (fun x => x.handle == h) (r1 :: rest) =
          List.find? (fun x => x.handle == h) rest :=
        List.find?_cons_of_neg rest (by simpa using hh)
      rw [hf]
      rcases List.mem_cons.mp hr with rfl | hr2
      · exact absurd hrh hh
      · exact ih hnd2 hr2

/-- The weekly score of an absent handle is 0. -/
lemma week_score_eq_zero_of_not_mem (wk : List Row) (h : String)
    (hno : ∀ r ∈ wk, r.handle ≠ h) : week_score wk h = 0 := by
  unfold week_score
  rw [List.find?_eq_none.mpr (fun x hx => by simpa using hno x hx)]

/-- Score totals over all weekly rows of a handle, week by week. -/
lemma sum_week_scores (W : List (List Row)) (h : String)
    (hnd : ∀ wk ∈ W, (wk.map Row.handle).Nodup) :
    ((W.flatten.filter (fun r => r.handle == h)).map Row.score).sum =
      (W.map (fun wk => week_score wk h)).sum := by
  induction W with
  | nil => simp
  | cons wk ws ih =>
    rw [List.flatten_cons, List.filter_append, List.map_append, List.sum_append,
      List.map_cons, List.sum_cons, week_filter_score wk h (hnd wk (List.mem_cons_self ..)),
      ih (fun x hx => hnd x (List.mem_cons_of_mem wk hx))]

/-- The monthly rollup, with the nested loop flattened. -/
lemma monthly_rollup_eq (W : List (List Row)) :
    monthly_rollup W = List.insertionSort mrowLE
      ((W.flatten.foldl (upsert MEntry.handle mEmpty mAdd Row.handle) []).map (fun e =>
        { handle := e.handle, tm := e.tm, se := e.se, sh := e.sh,
          total_units := e.total_units,
          score := if e.scores ≠ [] then e.scores.sum / 4 else 0 })) := by
  unfold monthly_rollup
  rw [foldl_foldl_flatten]
  rfl

/-- C2: a contributor appearing in at least one of the four weekly boards
gets a monthly row whose score is the sum of that contributor's weekly
scores — a week with no row contributing 0 and still counted in the
divisor — divided by exactly 4. -/
theorem C2_monthly_score_average (soldiers : List Soldier) (posts : List Post)
    (y m : Int) (h : String)
    (hap : ∃ wk ∈ (get_leaderboards soldiers posts y m).weeks, ∃ r ∈ wk, r.handle = h) :
    ∃ x ∈ (get_leaderboards soldiers posts y m).monthly, x.handle = h ∧
      x.score =
        (((get_leaderboards soldiers posts y m).weeks).map
          (fun wk => week_score wk h)).sum / 4 := by
  obtain ⟨wk0, hwk0, r0, hr0, hr0h⟩ := hap
  rw [leaderboards_weeks] at hwk0
  have hflat : r0 ∈ ((four_week_windows y m).map
      (fun w => aggregate_range soldiers posts w.1 w.2)).flatten :=
    List.mem_flatten.mpr ⟨wk0, hwk0, hr0⟩
  obtain ⟨hent, hnd, hmem⟩ := upsert_fold_char MEntry.handle mEmpty mAdd Row.handle
    (fun e2 rr => rfl) (fun h2 => rfl)
    ((four_week_windows y m).map (fun w => aggregate_range soldiers posts w.1 w.2)).flatten
  have hkey : h ∈ (((four_week_windows y m).map
      (fun w => aggregate_range soldiers posts w.1 w.2)).flatten.foldl
        (upsert MEntry.handle mEmpty mAdd Row.handle) []).map MEntry.handle :=
    (hmem h).mpr ⟨r0, hflat, hr0h⟩
  obtain ⟨e, he, heh⟩ := List.mem_map.mp hkey
  have hscores : e.scores = ((((four_week_windows y m).map
      (fun w => aggregate_range soldiers posts w.1 w.2)).flatten.filter
        (fun rr => rr.handle == e.handle)).map Row.score) := by
    conv_lhs => rw [hent e he]
    unfold entryOf
    rw [foldl_mAdd_scores]
    simp [mEmpty]
  have hne : e.scores ≠ [] := by
    rw [hscores, heh]
    intro hcontra
    have : r0 ∈ (((four_week_windows y m).map
        (fun w => aggregate_range soldiers posts w.1 w.2)).flatten.filter
          (fun rr => rr.handle == h)) :=
      List.mem_filter.mpr ⟨hflat, by simpa using hr0h⟩
    rw [show (((four_week_windows y m).map
        (fun w => aggregate_range soldiers posts w.1 w.2)).flatten.filter
          (fun rr => rr.handle == h)) = [] from List.map_eq_nil_iff.mp hcontra] at this
    exact List.not_mem_nil r0 this
  refine ⟨⟨e.handle, e.tm, e.se, e.sh, e.total_units,
      if e.scores ≠ [] then e.scores.sum / 4 else 0⟩, ?_, heh, ?_⟩
  · rw [leaderboards_monthly, monthly_rollup_eq,
      (List.perm_insertionSort mrowLE _).mem_iff]
    exact List.mem_map_of_mem _ he
  · show (if e.scores ≠ [] then e.scores.sum / 4 else 0) = _
    rw [if_pos hne, hscores, heh, leaderboards_weeks,
      sum_week_scores _ h (fun wk hwk => by
        obtain ⟨w, hw, rfl⟩ := List.mem_map.mp hwk
        exact aggregate_range_handles_nodup soldiers posts w.1 w.2)]

/-- Witness for C2: in January 2026's KPI month (windows 2025-12-28 …
2026-01-24), a contributor with weekly scores `[0.8, absent, absent,
absent]` gets monthly score `(4/5 + 0 + 0 + 0) / 4 = 1/5`: absent weeks
contribute 0 and the divisor stays 4. -/
theorem C2_monthly_score_average_witness :
    ∃ x ∈ (get_leaderboards [⟨"s1", "alice"⟩]
        [⟨"s1", "SH", 26, 739613⟩, ⟨"s1", "SH", 26, 739614⟩, ⟨"s1", "SH", 26, 739615⟩,
         ⟨"s1", "SH", 26, 739616⟩, ⟨"s1", "SH", 26, 739617⟩, ⟨"s1", "SH", 26, 739618⟩,
         ⟨"s1", "SH", 26, 739619⟩] 2026 1).monthly,
      x.handle = "alice" ∧ x.score = 1 / 5 := by
  obtain ⟨x, hx, hxh, hxs⟩ := C2_monthly_score_average [⟨"s1", "alice"⟩]
    [⟨"s1", "SH", 26, 739613⟩, ⟨"s1", "SH", 26, 739614⟩, ⟨"s1", "SH", 26, 739615⟩,
     ⟨"s1", "SH", 26, 739616⟩, ⟨"s1", "SH", 26, 739617⟩, ⟨"s1", "SH", 26, 739618⟩,
     ⟨"s1", "SH", 26, 739619⟩] 2026 1 "alice" (by decide)
  refine ⟨x, hx, hxh, ?_⟩
  rw [hxs]
  have hfw : four_week_windows 2026 1 =
      [(739613, 739619), (739620, 739626), (739627, 739633), (739634, 739640)] := by
    decide
  rw [leaderboards_weeks, hfw]
  simp only [List.map_cons, List.map_nil, List.sum_cons, List.sum_nil]
  obtain ⟨r1, hr1, hr1h⟩ : ∃ r ∈ aggregate_range [⟨"s1", "alice"⟩]
      [⟨"s1", "SH", 26, 739613⟩, ⟨"s1", "SH", 26, 739614⟩, ⟨"s1", "SH", 26, 739615⟩,
       ⟨"s1", "SH", 26, 739616⟩, ⟨"s1", "SH", 26, 739617⟩, ⟨"s1", "SH", 26, 739618⟩,
       ⟨"s1", "SH", 26, 739619⟩] 739613 739619, r.handle = "alice" := by decide
  have hw1 : week_score (aggregate_range [⟨"s1", "alice"⟩]
      [⟨"s1", "SH", 26, 739613⟩, ⟨"s1", "SH", 26, 739614⟩, ⟨"s1", "SH", 26, 739615⟩,
       ⟨"s1", "SH", 26, 739616⟩, ⟨"s1", "SH", 26, 739617⟩, ⟨"s1", "SH", 26, 739618⟩,
       ⟨"s1", "SH", 26, 739619⟩] 739613 739619) "alice" = r1.score :=
    week_score_eq_of_mem _ "alice" (aggregate_range_handles_nodup _ _ 739613 739619)
      r1 hr1 hr1h
  obtain ⟨hform, h0, h1, hz⟩ := aggregate_range_score_spec [⟨"s1", "alice"⟩]
    [⟨"s1", "SH", 26, 739613⟩, ⟨"s1", "SH", 26, 739614⟩, ⟨"s1", "SH", 26, 739615⟩,
     ⟨"s1", "SH", 26, 739616⟩, ⟨"s1", "SH", 26, 739617⟩, ⟨"s1", "SH", 26, 739618⟩,
     ⟨"s1", "SH", 26, 739619⟩] 739613 739619 r1 hr1
  rw [hr1h] at hform
  rw [hw1, hform,
    show ((List.range ((739619 : Int) - 739613 + 1).toNat).map (fun i : ℕ =>
      compute_qq_points
        (day_units [⟨"s1", "alice"⟩]
          [⟨"s1", "SH", 26, 739613⟩, ⟨"s1", "SH", 26, 739614⟩, ⟨"s1", "SH", 26, 739615⟩,
           ⟨"s1", "SH", 26, 739616⟩, ⟨"s1", "SH", 26, 739617⟩, ⟨"s1", "SH", 26, 739618⟩,
           ⟨"s1", "SH", 26, 739619⟩] 739613 739619 (739613 + (i : Int)) "alice"))).sum = 56
      from by decide]
  have hw2 : week_score (aggregate_range [⟨"s1", "alice"⟩]
      [⟨"s1", "SH", 26, 739613⟩, ⟨"s1", "SH", 26, 739614⟩, ⟨"s1", "SH", 26, 739615⟩,
       ⟨"s1", "SH", 26, 739616⟩, ⟨"s1", "SH", 26, 739617⟩, ⟨"s1", "SH", 26, 739618⟩,
       ⟨"s1", "SH", 26, 739619⟩] 739620 739626) "alice" = 0 :=
    week_score_eq_zero_of_not_mem _ "alice" (by decide)
  have hw3 : week_score (aggregate_range [⟨"s1", "alice"⟩]
      [⟨"s1", "SH", 26, 739613⟩, ⟨"s1", "SH", 26, 739614⟩, ⟨"s1", "SH", 26, 739615⟩,
       ⟨"s1", "SH", 26, 739616⟩, ⟨"s1", "SH", 26, 739617⟩, ⟨"s1", "SH", 26, 739618⟩,
       ⟨"s1", "SH", 26, 739619⟩] 739627 739633) "alice" = 0 :=
    week_score_eq_zero_of_not_mem _ "alice" (by decide)
  have hw4 : week_score (aggregate_range [⟨"s1", "alice"⟩]
      [⟨"s1", "SH", 26, 739613⟩, ⟨"s1", "SH", 26, 739614⟩, ⟨"s1", "SH", 26, 739615⟩,
       ⟨"s1", "SH", 26, 739616⟩, ⟨"s1", "SH", 26, 739617⟩, ⟨"s1", "SH", 26, 739618⟩,
       ⟨"s1", "SH", 26, 739619⟩] 739634 739640) "alice" = 0 :=
    week_score_eq_zero_of_not_mem _ "alice" (by decide)
  rw [hw2, hw3, hw4]
  norm_num

end SoldiersKPI
